import Mathlib

/-!
Verification of the `tff` toolkit against its specification.

Two subsystems are embedded from the source:

* the cycle-aware tree-model converter (`model/model.go`): `New` turns a Go
  value graph (ints, strings, slices, structs, pointers) into a tree of
  `Node`s, detecting shared pointer targets and assigning serial labels;
  `Fill` reconstructs a destination value from such a tree;
* the indentation-sensitive scanner (`core` package): turns a character
  stream into Indent/Unindent/LineString/Annotation/EOF tokens driven by an
  indent-prefix stack.

Go values are modelled shallowly: pointer targets live in a source heap
(`SHeap`), pointer identity is the heap address, and the in-place mutation
of already built `*Node`s (label assignment on revisit, field-name
wrapping) is modelled with an arena of nodes addressed by allocation index.
The filler's destination is a heap of cells; a `reflect.Value` denoting an
addressable slot is a cell index plus a path of field/index steps.
Recursion in the Go code is general recursion over a value graph, so every
embedded recursive function takes explicit fuel; running out of fuel is a
distinguished outcome (`.fuel` / `.stuck`) that the Go code itself never
returns, it only marks that the modelled run was cut short.
-/

/-! ## Source values: the Go value graph seen by `New` -/

/-- Go value as dispatched on by `reflect.Kind` in `model.go`: `Int`,
`String`, `Slice`, `Struct`, `Ptr`; `sother` stands for every other kind
(all of which the converter rejects as unsupported). A pointer is `none`
(nil) or an address into the source heap. -/
inductive SVal where
  | sint (n : Int)
  | sstr (s : String)
  | sslice (es : List SVal)
  | sstruct (fs : List (String × SVal))
  | sptr (a : Option Nat)
  | sother
deriving Repr

/-- Source heap: what each pointer address dereferences to. Total, since in
Go every non-nil pointer has a target. -/
def SHeap := Nat → SVal

/-! ## The node tree built by the maker -/

/-- Value carried by a `Node` (Go `interface{}`): absent, an `int`, a
`string`, a back-reference `Label`, or an `IdentValue{Ident, Value}`
wrapping one of the former with a struct field name. -/
inductive NVal where
  | vnone
  | vint (n : Int)
  | vstr (s : String)
  | vlabel (l : String)
  | vident (nm : String) (w : NVal)
deriving Repr, DecidableEq

/-- One `Node` of `model.go`: `Label` (empty string means unlabelled),
`Value`, and `List` of children (`none` models a nil Go slice; node
children are arena indices, see `MakerSt`). -/
structure MNode where
  label : String
  value : NVal
  list : Option (List Nat)
deriving Repr, DecidableEq

/-- Maker session state: the arena of every `*Node` allocated so far
(`*Node` identity = allocation index, so in-place mutation is `List.set`),
the identity map `m map[uintptr]*Node` from source address to arena index,
and the label `serial` counter starting at 1. -/
structure MakerSt where
  arena : List MNode
  idmap : List (Nat × Nat)
  serial : Nat
deriving Repr, DecidableEq

/-- Errors of a modelled maker run: `goErr` is an error value the Go code
returns; `fuel` marks that the modelled run exceeded its fuel (the Go code
would still be recursing). -/
inductive MErr where
  | goErr (msg : String)
  | fuel
deriving Repr, DecidableEq

/-- Fresh maker state (`newMaker`). -/
def mkMaker : MakerSt := ⟨[], [], 1⟩

/-- Allocate a new `*Node` (a `&Node{...}` expression): append to the arena
and return its index. -/
def alloc (st : MakerSt) (nd : MNode) : MakerSt × Nat :=
  ({ st with arena := st.arena ++ [nd] }, st.arena.length)

/-- In-place mutation `node.Value = w` of the node at arena index `i`. -/
def setValue (st : MakerSt) (i : Nat) (w : NVal) : MakerSt :=
  match st.arena[i]? with
  | some nd => { st with arena := st.arena.set i { nd with value := w } }
  | none => st

/-- Go `maker.register(p, node)`: record address `a` ↦ node index `i`. -/
def mregister (st : MakerSt) (a : Nat) (i : Nat) : MakerSt :=
  { st with idmap := (a, i) :: st.idmap }

/-- Go `maker.label(addr)`: if `addr` was registered, return its node's
label, assigning `strconv.Itoa(serial)` first (mutating the node in place
and bumping the counter) if the node is still unlabelled; otherwise report
a miss (`none`). -/
def mlabel (st : MakerSt) (a : Nat) : MakerSt × Option String :=
  match st.idmap.lookup a with
  | some i =>
    match st.arena[i]? with
    | some nd =>
      if nd.label = "" then
        ({ st with arena := st.arena.set i { nd with label := toString st.serial },
                   serial := st.serial + 1 }, some (toString st.serial))
      else (st, some nd.label)
    | none => (st, some "")
  | none => (st, none)

/-- Go `indirect(v)`: dereference while the value is a non-nil pointer.
Fueled because a pointer chain in the heap may be circular. -/
def indirectF : Nat → SHeap → SVal → Option SVal
  | 0, _, _ => none
  | f+1, h, v =>
    match v with
    | .sptr (some a) => indirectF f h (h a)
    | v => some v

mutual

/-- Go `maker.list(v)`: scalars become a one-node list, slices and structs
are expanded elementwise, pointers are indirected and retried (note that a
nil pointer is returned unchanged by `indirect`, so `m.list` on a nil
pointer re-enters itself forever — the model runs out of fuel), anything
else is `maker.list: unsupported type`. -/
def mlist : Nat → SHeap → MakerSt → SVal → Except MErr (MakerSt × List Nat)
  | 0, _, _, _ => .error .fuel
  | f+1, h, st, v =>
    match v with
    | .sint n => do
      let (st, i) ← mnode f h st (.sint n)
      .ok (st, [i])
    | .sstr s => do
      let (st, i) ← mnode f h st (.sstr s)
      .ok (st, [i])
    | .sslice es => mlistFromSlice f h st es
    | .sstruct fs => mlistFromStruct f h st fs
    | .sptr a =>
      match indirectF f h (.sptr a) with
      | some v' => mlist f h st v'
      | none => .error .fuel
    | .sother => .error (.goErr "maker.list: unsupported type")

/-- Go `maker.listFromSlice(v)`: one node per element, in order. -/
def mlistFromSlice : Nat → SHeap → MakerSt → List SVal → Except MErr (MakerSt × List Nat)
  | 0, _, _, _ => .error .fuel
  | _+1, _, st, [] => .ok (st, [])
  | f+1, h, st, e :: es => do
    let (st, i) ← mnode f h st e
    let (st, is) ← mlistFromSlice f h st es
    .ok (st, i :: is)

/-- Go `maker.listFromStruct(v)`: one node per field in declaration order;
a field whose node has a nil `List` gets its value rewrapped in place as
`IdentValue{fieldName, value}`. -/
def mlistFromStruct : Nat → SHeap → MakerSt → List (String × SVal) → Except MErr (MakerSt × List Nat)
  | 0, _, _, _ => .error .fuel
  | _+1, _, st, [] => .ok (st, [])
  | f+1, h, st, (nm, e) :: fs => do
    let (st, i) ← mnode f h st e
    let st :=
      match st.arena[i]? with
      | some nd => if nd.list = none then setValue st i (.vident nm nd.value) else st
      | none => st
    let (st, is) ← mlistFromStruct f h st fs
    .ok (st, i :: is)

/-- Go `maker.node(v)`: int/string become leaf nodes, a slice becomes a
node owning the children list built by `m.list`, a pointer goes through
`nodeFromPtr`; every other kind (including structs) is
`node: unsupported type`. -/
def mnode : Nat → SHeap → MakerSt → SVal → Except MErr (MakerSt × Nat)
  | 0, _, _, _ => .error .fuel
  | f+1, h, st, v =>
    match v with
    | .sint n => .ok (alloc st ⟨"", .vint n, none⟩)
    | .sstr s => .ok (alloc st ⟨"", .vstr s, none⟩)
    | .sslice es => do
      let (st, is) ← mlist f h st (.sslice es)
      .ok (alloc st ⟨"", .vnone, some is⟩)
    | .sptr a => mnodeFromPtr f h st a
    | _ => .error (.goErr "node: unsupported type")

/-- Go `maker.nodeFromPtr(v)`: nil pointer gives an empty leaf node
(avoiding the infinite loop, per the source comment); a registered address
gives a fresh leaf node holding the target's (possibly newly assigned)
label; otherwise the target is built recursively and only *then* is the
address registered. -/
def mnodeFromPtr : Nat → SHeap → MakerSt → Option Nat → Except MErr (MakerSt × Nat)
  | 0, _, _, _ => .error .fuel
  | _+1, _, st, none => .ok (alloc st ⟨"", .vnone, none⟩)
  | f+1, h, st, some a =>
    match mlabel st a with
    | (st, some lbl) => .ok (alloc st ⟨"", .vlabel lbl, none⟩)
    | (st, none) =>
      match indirectF f h (.sptr (some a)) with
      | some v' => do
        let (st, i) ← mnode f h st v'
        .ok (mregister st a i, i)
      | none => .error .fuel

end

/-- Go `New(v)`: nil interface yields `(nil, nil)`; otherwise run the maker
on a fresh session. -/
def NewM (f : Nat) (h : SHeap) (v : Option SVal) : Except MErr (MakerSt × List Nat) :=
  match v with
  | none => .ok (mkMaker, [])
  | some v => mlist f h mkMaker v

/-! ## Full unfolding: the ancestor-cycle criterion for claim C3

The following functions mirror the maker's recursion skeleton exactly
(same fuel discipline) but carry no session state and always recurse into
a pointer target, never consulting the identity map. `unfoldList f h v =
true` states that the full construction tree of `v` is finite and explored
within fuel `f` — that is, no value is reached again from within its own
construction (no ancestor-cycle). -/

mutual

/-- Skeleton of `maker.list` without the identity map. -/
def unfoldList : Nat → SHeap → SVal → Bool
  | 0, _, _ => false
  | f+1, h, v =>
    match v with
    | .sint n => unfoldNode f h (.sint n)
    | .sstr s => unfoldNode f h (.sstr s)
    | .sslice es => unfoldSliceAux f h es
    | .sstruct fs => unfoldStructAux f h fs
    | .sptr a =>
      match indirectF f h (.sptr a) with
      | some v' => unfoldList f h v'
      | none => false
    | .sother => true

/-- Skeleton of `maker.listFromSlice`. -/
def unfoldSliceAux : Nat → SHeap → List SVal → Bool
  | 0, _, _ => false
  | _+1, _, [] => true
  | f+1, h, e :: es => unfoldNode f h e && unfoldSliceAux f h es

/-- Skeleton of `maker.listFromStruct`. -/
def unfoldStructAux : Nat → SHeap → List (String × SVal) → Bool
  | 0, _, _ => false
  | _+1, _, [] => true
  | f+1, h, (_, e) :: fs => unfoldNode f h e && unfoldStructAux f h fs

/-- Skeleton of `maker.node`. -/
def unfoldNode : Nat → SHeap → SVal → Bool
  | 0, _, _ => false
  | f+1, h, v =>
    match v with
    | .sint _ => true
    | .sstr _ => true
    | .sslice es => unfoldList f h (.sslice es)
    | .sptr a => unfoldFromPtr f h a
    | _ => true

/-- Skeleton of `maker.nodeFromPtr`, always recursing into a non-nil
target (no identity-map short cut). -/
def unfoldFromPtr : Nat → SHeap → Option Nat → Bool
  | 0, _, _ => false
  | _+1, _, none => true
  | f+1, h, some a =>
    match indirectF f h (.sptr (some a)) with
    | some v' => unfoldNode f h v'
    | none => false

end

/-- Test whether a maker result is the fuel-exhaustion artifact (the
modelled Go run would still be recursing). -/
def isFuelN {α : Type} : Except MErr α → Bool
  | .error .fuel => true
  | _ => false

/-! ## Destination values: the typed mutable graph filled by `Fill` -/

/-- Go type as dispatched on by `reflect.Kind` on the destination side:
`Int`, `String`, `Slice` (with element type), `Struct` (with named fields
in declaration order), `Ptr` (with pointee type); `tother` is any other
kind. -/
inductive Ty where
  | tint
  | tstr
  | tslice (t : Ty)
  | tstruct (fs : List (String × Ty))
  | tptr (t : Ty)
  | tother
deriving Repr

/-- Destination value stored in a cell of the filler heap. A pointer is
nil (`none`) or the index of another heap cell. -/
inductive DVal where
  | dint (n : Int)
  | dstr (s : String)
  | dslice (es : List DVal)
  | dstruct (fs : List (String × DVal))
  | dptr (a : Option Nat)
  | dother
deriving Repr

/-- One step of an access path inside a cell: a struct field or a slice
index. -/
inductive PE where
  | pfield (nm : String)
  | pindex (i : Nat)
deriving Repr, DecidableEq

/-- An addressable `reflect.Value` slot on the destination side: a heap
cell plus a path of field/index steps inside it. -/
structure Loc where
  base : Nat
  path : List PE
deriving Repr, DecidableEq

/-- Errors of a modelled filler run: `goErr` is an error the Go code
returns; `stuck` marks fuel exhaustion or an operation on which the Go
code would panic (e.g. `reflect.Value.Set` with an unassignable value). -/
inductive FErr where
  | goErr (msg : String)
  | stuck
deriving Repr, DecidableEq

/-- Filler session state: the destination heap (cell index ↦ value), the
next fresh cell index, and the label map `m map[Label]reflect.Value`. -/
structure FSt where
  heap : List (Nat × DVal)
  next : Nat
  fm : List (String × Loc)
deriving Repr

mutual

/-- Zero value of a Go type (`reflect.New(t).Elem()`): 0, "", nil slice,
zeroed struct, nil pointer. -/
def zeroVal : Ty → DVal
  | .tint => .dint 0
  | .tstr => .dstr ""
  | .tslice _ => .dslice []
  | .tstruct fs => .dstruct (zeroFields fs)
  | .tptr _ => .dptr none
  | .tother => .dother

/-- Zero values of a struct's fields. -/
def zeroFields : List (String × Ty) → List (String × DVal)
  | [] => []
  | (nm, t) :: fs => (nm, zeroVal t) :: zeroFields fs

end

/-- Read the sub-value at `p` inside `v`. -/
def readPath : DVal → List PE → Option DVal
  | v, [] => some v
  | .dstruct fs, .pfield nm :: p =>
    match fs.lookup nm with
    | some w => readPath w p
    | none => none
  | .dslice es, .pindex i :: p =>
    match es[i]? with
    | some w => readPath w p
    | none => none
  | _, _ => none

/-- Replace the value of field `nm` (first occurrence) in a field list. -/
def setAssoc : List (String × DVal) → String → DVal → List (String × DVal)
  | [], _, _ => []
  | (k, v) :: fs, nm, x => if k = nm then (k, x) :: fs else (k, v) :: setAssoc fs nm x

/-- Write `x` at path `p` inside `v` (fails if the path does not navigate). -/
def writePath : DVal → List PE → DVal → Option DVal
  | _, [], x => some x
  | .dstruct fs, .pfield nm :: p, x => do
    let w ← fs.lookup nm
    let w' ← writePath w p x
    some (.dstruct (setAssoc fs nm w'))
  | .dslice es, .pindex i :: p, x => do
    let w ← es[i]?
    let w' ← writePath w p x
    some (.dslice (es.set i w'))
  | _, _, _ => none

/-- Value of heap cell `a`. -/
def heapGet (H : List (Nat × DVal)) (a : Nat) : Option DVal := H.lookup a

/-- Replace the value of heap cell `a` (first occurrence; no-op if the
cell does not exist). -/
def heapSet : List (Nat × DVal) → Nat → DVal → List (Nat × DVal)
  | [], _, _ => []
  | (b, v) :: H, a, x => if b = a then (b, x) :: H else (b, v) :: heapSet H a x

/-- Read the destination slot `l`. -/
def readLoc (H : List (Nat × DVal)) (l : Loc) : Option DVal :=
  (heapGet H l.base).bind (fun v => readPath v l.path)

/-- Write `x` into the destination slot `l` (models `reflect.Value.Set`). -/
def writeLoc (H : List (Nat × DVal)) (l : Loc) (x : DVal) : Option (List (Nat × DVal)) := do
  let v ← heapGet H l.base
  let v' ← writePath v l.path x
  some (heapSet H l.base v')

/-- Allocate a fresh heap cell holding `v` (a `reflect.New` allocation). -/
def fallocCell (st : FSt) (v : DVal) : FSt × Nat :=
  ({ st with heap := st.heap ++ [(st.next, v)], next := st.next + 1 }, st.next)

/-- Go `allocIndirect(v)`: while the slot's type is a pointer, allocate a
zeroed target if the pointer is nil, then move to the target. Recursion is
on the type, which is finite. -/
def allocIndirectF : Ty → Loc → FSt → Option (Ty × Loc × FSt)
  | .tptr t, loc, st =>
    match readLoc st.heap loc with
    | some (.dptr (some a)) => allocIndirectF t ⟨a, []⟩ st
    | some (.dptr none) =>
      let (st, b) := fallocCell st (zeroVal t)
      match writeLoc st.heap loc (.dptr (some b)) with
      | some H => allocIndirectF t ⟨b, []⟩ { st with heap := H }
      | none => none
    | _ => none
  | t, loc, st => some (t, loc, st)

/-- Assigning a node value into an int/string destination slot
(`v.Set(reflect.ValueOf(src))`): only an `int` into an `Int` slot or a
`string` into a `String` slot is assignable; everything else (a raw
`Label`, an absent value, a kind mismatch) makes `reflect.Value.Set`
panic. -/
def setScalar : Ty → NVal → Option DVal
  | .tint, .vint n => some (.dint n)
  | .tstr, .vstr s => some (.dstr s)
  | _, _ => none

mutual

/-- Go `filler.fromList(l, v)`: an int/string destination is filled from
the first node only when the list is non-empty — an empty list falls
through to the `List.fill: unsupported type` error shared with genuinely
unsupported kinds; slices and structs are handled elementwise; a pointer
destination is allocated through and retried. -/
def ffromList : Nat → List MNode → List Nat → Ty → Loc → FSt → Except FErr FSt
  | 0, _, _, _, _, _ => .error .stuck
  | f+1, a, l, t, loc, st =>
    match t with
    | .tint =>
      match l with
      | i :: _ => ffromNode f a i .tint loc st
      | [] => .error (.goErr "List.fill: unsupported type")
    | .tstr =>
      match l with
      | i :: _ => ffromNode f a i .tstr loc st
      | [] => .error (.goErr "List.fill: unsupported type")
    | .tslice te => fsliceFromList f a l te loc st 0
    | .tstruct fs => fstructFromList f a l fs loc st
    | .tptr te =>
      match allocIndirectF (.tptr te) loc st with
      | some (t', loc', st') => ffromList f a l t' loc' st'
      | none => .error .stuck
    | .tother => .error (.goErr "List.fill: unsupported type")

/-- Go `filler.sliceFromList(l, v)`: for each node, append a zero element
to the destination slice (`v.Set(reflect.Append(v, ...))`) and fill
element `i` from the node. -/
def fsliceFromList : Nat → List MNode → List Nat → Ty → Loc → FSt → Nat → Except FErr FSt
  | 0, _, _, _, _, _, _ => .error .stuck
  | _+1, _, [], _, _, st, _ => .ok st
  | f+1, a, n :: l, te, loc, st, i =>
    match readLoc st.heap loc with
    | some (.dslice es) =>
      match writeLoc st.heap loc (.dslice (es ++ [zeroVal te])) with
      | some H => do
        let st ← ffromNode f a n te ⟨loc.base, loc.path ++ [.pindex i]⟩ { st with heap := H }
        fsliceFromList f a l te loc st (i+1)
      | none => .error .stuck
    | _ => .error .stuck

/-- Go `filler.structFromList(l, v)`: a node is routed to the destination
field named by its `IdentValue` wrapper; nodes without an `IdentValue`
value, and names matching no field, are silently skipped. -/
def fstructFromList : Nat → List MNode → List Nat → List (String × Ty) → Loc → FSt → Except FErr FSt
  | 0, _, _, _, _, _ => .error .stuck
  | _+1, _, [], _, _, st => .ok st
  | f+1, a, i :: l, fs, loc, st =>
    match a[i]? with
    | none => .error .stuck
    | some nd =>
      match nd.value with
      | .vident nm _ =>
        match fs.lookup nm with
        | some ft => do
          let st ← ffromNode f a i ft ⟨loc.base, loc.path ++ [.pfield nm]⟩ st
          fstructFromList f a l fs loc st
        | none => fstructFromList f a l fs loc st
      | _ => fstructFromList f a l fs loc st

/-- Go `filler.fromNode(n, v)`: into an int/string slot, a field-wrapped
back-reference label is only reported (`p(label)`) and *not* assigned —
the run continues without error; otherwise the (unwrapped) scalar is
assigned via `reflect.Value.Set`. A slice slot is filled from the node's
children; a pointer slot goes through `ptrFromNode`; other kinds are
`Node.fill: unsupported type`. -/
def ffromNode : Nat → List MNode → Nat → Ty → Loc → FSt → Except FErr FSt
  | 0, _, _, _, _, _ => .error .stuck
  | f+1, a, i, t, loc, st =>
    match a[i]? with
    | none => .error .stuck
    | some nd =>
      match t with
      | .tint =>
        match nd.value with
        | .vident _ (.vlabel _) => .ok st
        | .vident _ w =>
          match setScalar .tint w with
          | some dv =>
            match writeLoc st.heap loc dv with
            | some H => .ok { st with heap := H }
            | none => .error .stuck
          | none => .error .stuck
        | w =>
          match setScalar .tint w with
          | some dv =>
            match writeLoc st.heap loc dv with
            | some H => .ok { st with heap := H }
            | none => .error .stuck
          | none => .error .stuck
      | .tstr =>
        match nd.value with
        | .vident _ (.vlabel _) => .ok st
        | .vident _ w =>
          match setScalar .tstr w with
          | some dv =>
            match writeLoc st.heap loc dv with
            | some H => .ok { st with heap := H }
            | none => .error .stuck
          | none => .error .stuck
        | w =>
          match setScalar .tstr w with
          | some dv =>
            match writeLoc st.heap loc dv with
            | some H => .ok { st with heap := H }
            | none => .error .stuck
          | none => .error .stuck
      | .tslice te => ffromList f a (nd.list.getD []) (.tslice te) loc st
      | .tptr te => fptrFromNode f a i (.tptr te) loc st
      | _ => .error (.goErr "Node.fill: unsupported type")

/-- Go `filler.ptrFromNode(n, v)`: a labelled node registers label ↦ this
destination slot *before* its content is filled; an unlabelled node whose
value *is* a label assigns the previously registered slot's current value
(restoring sharing) and returns; otherwise the target is allocated and
filled normally. -/
def fptrFromNode : Nat → List MNode → Nat → Ty → Loc → FSt → Except FErr FSt
  | 0, _, _, _, _, _ => .error .stuck
  | f+1, a, i, t, loc, st =>
    match a[i]? with
    | none => .error .stuck
    | some nd =>
      if nd.label ≠ "" then
        let st := { st with fm := (nd.label, loc) :: st.fm }
        match allocIndirectF t loc st with
        | some (t', loc', st') => ffromNode f a i t' loc' st'
        | none => .error .stuck
      else
        match nd.value with
        | .vlabel lbl =>
          match st.fm.lookup lbl with
          | some rloc =>
            match readLoc st.heap rloc with
            | some dv =>
              match writeLoc st.heap loc dv with
              | some H => .ok { st with heap := H }
              | none => .error .stuck
            | none => .error .stuck
          | none => .error .stuck
        | _ =>
          match allocIndirectF t loc st with
          | some (t', loc', st') => ffromNode f a i t' loc' st'
          | none => .error .stuck

end

/-- Go `Fill(l, v)` where the caller passes a non-nil pointer `v = &dest`
to a zeroed destination of type `t`: cell 0 holds the pointer value, cell
1 the destination. The filler starts with a fresh session
(`newFiller()`). -/
def FillM (f : Nat) (a : List MNode) (l : List Nat) (t : Ty) : Except FErr FSt :=
  ffromList f a l (.tptr t) ⟨0, []⟩ ⟨[(0, .dptr (some 1)), (1, zeroVal t)], 2, []⟩

/-! ## The scanner (`core` package) -/

/-- Token kinds of the scanner (Go `TokenType`): `annot` models
`Annotation`, `lineString` models `LineString`, `sof` is the internal
start-of-input sentinel `_SOF`. -/
inductive TokType where
  | invalid
  | annot
  | lineString
  | indent
  | unindent
  | eof
  | sof
deriving Repr, DecidableEq

/-- Go `Token{Type, Value}`. -/
structure Token where
  type : TokType
  value : String
deriving Repr, DecidableEq

/-- Scanner error state (Go `s.err`): `noErr` is a nil error, `eofErr` is
`io.EOF`, `invalidCodePoint` is `errInvalidCodePoint`, `mismatchIndent` is
the `"mismatch indent"` error. -/
inductive SErr where
  | noErr
  | eofErr
  | invalidCodePoint
  | mismatchIndent
deriving Repr, DecidableEq

/-- Scanner state: remaining input runes, the last read rune `s.ch`, the
indent-prefix stack `s.indents`, the pending token queue `s.toks`, and the
error `s.err`. -/
structure ScSt where
  input : List Char
  ch : Char
  indents : List String
  toks : List Token
  err : SErr
deriving Repr, DecidableEq

/-- Go `NewScanner`: stack `[""]`, queue holding the `_SOF` sentinel. -/
def initSc (input : List Char) : ScSt :=
  ⟨input, Char.ofNat 0, [""], [⟨.sof, ""⟩], .noErr⟩

/-- Go `(*Scanner).next()`: read one rune (end of input sets `io.EOF`),
then validate it: the four whitespace runes pass; the Unicode replacement
character (a decoding failure) and any control character in `0x00–0x19`
set `errInvalidCodePoint` and fail; everything else passes. -/
def nextF (st : ScSt) : Bool × ScSt :=
  match st.input with
  | [] => (false, { st with ch := Char.ofNat 0, err := .eofErr })
  | c :: rest =>
    let st := { st with ch := c, input := rest, err := .noErr }
    if c = '\t' ∨ c = ' ' ∨ c = '\r' ∨ c = '\n' then (true, st)
    else if c = Char.ofNat 0xFFFD then (false, { st with err := .invalidCodePoint })
    else if c.toNat ≤ 0x19 then (false, { st with err := .invalidCodePoint })
    else (true, st)

/-- Go `(*Scanner).prev()`: unread the last rune (always succeeds here,
since the code only calls it right after a successful `next`). -/
def prevF (st : ScSt) : ScSt :=
  { st with input := st.ch :: st.input, err := .noErr }

/-- Go `(*Scanner).indentSpaces()`: collect the leading run of spaces and
tabs; on the first other rune, push it back and succeed with the collected
run; if `next` fails, discard the run and report `ok = false`. -/
def indentSpacesF : Nat → ScSt → List Char → Option (String × Bool × ScSt)
  | 0, _, _ => none
  | f+1, st, rs =>
    match nextF st with
    | (false, st') => some ("", false, st')
    | (true, st') =>
      if st'.ch = ' ' ∨ st'.ch = '\t' then indentSpacesF f st' (rs ++ [st'.ch])
      else some (String.mk rs, true, prevF st')

/-- Go `(*Scanner).newlineSpaces()`: consume CR/LF runes, remembering
whether any was seen; on the first other rune, push it back. -/
def newlineSpacesF : Nat → ScSt → Bool → Option (Bool × Bool × ScSt)
  | 0, _, _ => none
  | f+1, st, hn =>
    match nextF st with
    | (false, st') => some (hn, false, st')
    | (true, st') =>
      if st'.ch = '\r' ∨ st'.ch = '\n' then newlineSpacesF f st' true
      else some (hn, true, prevF st')

/-- Go `(*Scanner).scanIndent()`: measure the indent of the next line,
looping past blank lines (an indent immediately followed by a line break
is discarded and measurement restarts). -/
def scanIndentF : Nat → ScSt → Option (String × Bool × ScSt)
  | 0, _ => none
  | f+1, st =>
    match indentSpacesF f st [] with
    | none => none
    | some (ind, false, st) => some (ind, false, st)
    | some (ind, true, st) =>
      match newlineSpacesF f st false with
      | none => none
      | some (_, false, st) => some (ind, false, st)
      | some (false, true, st) => some (ind, true, st)
      | some (true, true, st) => scanIndentF f st

/-- Go `(*Scanner).inline()`: collect runes up to (excluding) the next
line break, pushing the line break back; a failing `next` (end of input or
invalid rune) ends the collection. -/
def inlineF : Nat → ScSt → List Char → Option (String × ScSt)
  | 0, _, _ => none
  | f+1, st, rs =>
    match nextF st with
    | (false, st') => some (String.mk rs, st')
    | (true, st') =>
      if st'.ch = '\r' ∨ st'.ch = '\n' then some (String.mk rs, prevF st')
      else inlineF f st' (rs ++ [st'.ch])

/-- Go `(*Scanner).afterIndent()`: classify the rest of the line: a line
starting with `#` becomes an `Annotation` token with the marker stripped,
anything else a `LineString` token with the raw remainder. -/
def afterIndentF (f : Nat) (st : ScSt) : Option ScSt :=
  if st.ch = '#' then
    match inlineF f st [] with
    | some (s, st) => some { st with toks := st.toks ++ [⟨.annot, s.drop 1⟩] }
    | none => none
  else
    match inlineF f st [] with
    | some (s, st) => some { st with toks := st.toks ++ [⟨.lineString, s⟩] }
    | none => none

/-- Go `strings.HasPrefix(s, pre)`. -/
def hasPrefixGo (s pre : String) : Bool := pre.data.isPrefixOf s.data

/-- The search loop of `calcIndent`: find the least `i ≥ start` with
`i < len(indents)` and `indents[len(indents)-1-i] = ind`. The first
argument counts the remaining iterations (structurally decreasing; the
entry point supplies enough for the whole stack). -/
def findBackAux (indents : List String) (ind : String) : Nat → Nat → Option Nat
  | 0, _ => none
  | d+1, i =>
    if i < indents.length then
      if indents.getD (indents.length - 1 - i) "" = ind then some i
      else findBackAux indents ind d (i+1)
    else none

/-- Entry point of the `calcIndent` search loop (`for i := 1; ...`). -/
def findBack (indents : List String) (ind : String) : Option Nat :=
  findBackAux indents ind indents.length 1

/-- Go `(*Scanner).calcIndent(indent)`: `0` when the measured indent
equals the stack top, `1` when the top is a prefix of it (one new level),
`-i` when an exact match sits `i` levels below the top, and `ok = false`
when no stack entry matches. -/
def calcIndentGo (indents : List String) (ind : String) : Int × Bool :=
  let last := indents.getLastD ""
  if ind = last then (0, true)
  else if hasPrefixGo ind last then (1, true)
  else
    match findBack indents ind with
    | some i => (-(i : Int), true)
    | none => (0, false)

/-- Go `(*Scanner).scanLine()`: measure the indent (failing silently on a
failed measurement — the error is already recorded), then dispatch on
`calcIndent`: same depth emits the content token; one deeper pushes the
new prefix and emits `Indent` plus the content token; a dedent to `k`
levels below pops `k` entries (`s.indents[:len-k]`) and emits `k`
`Unindent` tokens with *no* content token; no match records the fatal
`mismatch indent` error. -/
def scanLineF (f : Nat) (st : ScSt) : Option ScSt :=
  match scanIndentF f st with
  | none => none
  | some (_, false, st) => some st
  | some (ind, true, st) =>
    match calcIndentGo st.indents ind with
    | (_, false) => some { st with err := .mismatchIndent }
    | (n, true) =>
      if n = 0 then afterIndentF f st
      else if n = 1 then
        afterIndentF f { st with indents := st.indents ++ [ind],
                                 toks := st.toks ++ [⟨.indent, ""⟩] }
      else
        let k := (-n).toNat
        some { st with indents := st.indents.take (st.indents.length - k),
                       toks := st.toks ++ List.replicate k ⟨.unindent, ""⟩ }

/-- Go `(*Scanner).handleEOF()`: once the error is `io.EOF`, synthesize
one `Unindent` per open indent level (truncating the stack to `[""]`) and
enqueue the single `EOF` token. -/
def handleEOFF (st : ScSt) : ScSt :=
  if st.err = .eofErr then
    let st :=
      if st.indents.length > 1 then
        { st with toks := st.toks ++ List.replicate (st.indents.length - 1) ⟨.unindent, ""⟩,
                  indents := st.indents.take 1 }
      else st
    { st with toks := st.toks ++ [⟨.eof, ""⟩] }
  else st

/-- Go `(*Scanner).Scan()`: drop the current token; if tokens remain,
succeed; if an error is recorded, fail; otherwise scan one line, run the
end-of-input handling, and succeed iff tokens were produced. -/
def scanStep (f : Nat) (st : ScSt) : Option (Bool × ScSt) :=
  let st := { st with toks := st.toks.tail }
  if st.toks ≠ [] then some (true, st)
  else if st.err ≠ .noErr then some (false, st)
  else
    match scanLineF f st with
    | none => none
    | some st =>
      let st := handleEOFF st
      some (st.toks ≠ [], st)

/-- Go `(*Scanner).Token()`: the front of the queue. -/
def tokenF (st : ScSt) : Token := st.toks.headD ⟨.invalid, ""⟩

/-- Go `(*Scanner).Err()`: `io.EOF` is not reported as an error. -/
def errF (st : ScSt) : Option SErr :=
  if st.err = .eofErr ∨ st.err = .noErr then none else some st.err

/-- Drive the scanner as its callers do: `for s.Scan() { use s.Token() }`,
collecting every token observed; `none` when the (outer) fuel runs out
before `Scan` returns false. -/
def driveF : Nat → Nat → ScSt → List Token → Option (List Token × ScSt)
  | 0, _, _, _ => none
  | g+1, f, st, acc =>
    match scanStep f st with
    | none => none
    | some (true, st') => driveF g f st' (acc ++ [tokenF st'])
    | some (false, st') => some (acc, st')

/-- Number of tokens of type `tt` in a token list. -/
def countTok (tt : TokType) (l : List Token) : Nat :=
  (l.filter (fun t => t.type = tt)).length

/-! ## Claims about the tree-model converter -/

/-- C10: for an integer or string destination, `fromList` applied to an
empty node list does not succeed with the destination unchanged — the
scalar branch fills only when the list is non-empty, and an empty list
falls through to the same `List.fill: unsupported type` error used for
genuinely unsupported destination kinds. -/
theorem c10_empty_list_scalar_error (f : Nat) (a : List MNode) (loc : Loc) (st : FSt)
    (hf : 1 ≤ f) :
    ffromList f a [] .tint loc st = .error (.goErr "List.fill: unsupported type") ∧
    ffromList f a [] .tstr loc st = .error (.goErr "List.fill: unsupported type") := by
  match f, hf with
  | f+1, _ => exact ⟨rfl, rfl⟩

/-- Witness for C10 at a concrete empty list and destinations. -/
theorem c10_witness :
    ffromList 1 [] [] .tint ⟨0, []⟩ ⟨[(0, .dint 5)], 1, []⟩
      = .error (.goErr "List.fill: unsupported type") ∧
    ffromList 1 [] [] .tstr ⟨0, []⟩ ⟨[(0, .dstr "x")], 1, []⟩
      = .error (.goErr "List.fill: unsupported type") :=
  ⟨(c10_empty_list_scalar_error 1 [] ⟨0, []⟩ ⟨[(0, .dint 5)], 1, []⟩ (by decide)).1,
   (c10_empty_list_scalar_error 1 [] ⟨0, []⟩ ⟨[(0, .dstr "x")], 1, []⟩ (by decide)).2⟩

/-- C7: when `fromNode` reaches an integer or string destination whose
source node's field-unwrapped value is a back-reference label, it performs
no assignment — the state (destination heap included) is returned exactly
unchanged and no error is raised. -/
theorem c7_label_scalar_noop (f : Nat) (a : List MNode) (i : Nat) (t : Ty) (loc : Loc)
    (st : FSt) (nd : MNode) (nm lbl : String)
    (hf : 1 ≤ f) (hget : a[i]? = some nd) (hval : nd.value = .vident nm (.vlabel lbl))
    (ht : t = .tint ∨ t = .tstr) :
    ffromNode f a i t loc st = .ok st := by
  match f, hf with
  | f+1, _ =>
    rcases ht with rfl | rfl <;> simp [ffromNode, hget, hval]

/-- Witness for C7: a field-wrapped back-reference into an int slot leaves
the filler state untouched. -/
theorem c7_witness :
    ffromNode 3 [⟨"", .vident "B" (.vlabel "1"), none⟩] 0 .tint ⟨0, []⟩
      ⟨[(0, .dint 5)], 1, []⟩ = .ok ⟨[(0, .dint 5)], 1, []⟩ :=
  c7_label_scalar_noop 3 [⟨"", .vident "B" (.vlabel "1"), none⟩] 0 .tint ⟨0, []⟩
    ⟨[(0, .dint 5)], 1, []⟩ ⟨"", .vident "B" (.vlabel "1"), none⟩ "B" "1"
    (by decide) rfl rfl (Or.inl rfl)

/-- C9: `nodeFromPtr` on a nil reference produces an empty leaf `Node` (no
value, no children), touches neither the identity map nor the serial
counter (only the arena gains the new node), never recurses into a target
(the source heap `h` is arbitrary and absent from the result); and `New`
on a nil top-level value yields an empty result with no error. -/
theorem c9_nil_reference :
    (∀ f (h : SHeap) (st : MakerSt), 1 ≤ f →
      mnodeFromPtr f h st none
        = .ok ({ st with arena := st.arena ++ [⟨"", .vnone, none⟩] }, st.arena.length)) ∧
    (∀ f (h : SHeap), NewM f h none = .ok (mkMaker, [])) := by
  constructor
  · intro f h st hf
    match f, hf with
    | f+1, _ => rfl
  · intro f h
    rfl

/-- Witness for C9 at fuel 1 and a fresh maker session. -/
theorem c9_witness :
    mnodeFromPtr 1 (fun _ => .sint 0) mkMaker none
      = .ok ({ mkMaker with arena := [⟨"", .vnone, none⟩] }, 0) :=
  c9_nil_reference.1 1 (fun _ => .sint 0) mkMaker (by decide)

/-- C8: filling a record destination from nodes that are all droppable —
each node's value either is no `IdentValue` at all, or is an `IdentValue`
whose name matches no destination field — completes without error and
leaves the filler state (hence every destination field) exactly as it
was. -/
theorem c8_field_dropping (f : Nat) (a : List MNode) (l : List Nat)
    (fs : List (String × Ty)) (loc : Loc) (st : FSt)
    (hf : l.length < f)
    (hdrop : ∀ i ∈ l, ∃ nd, a[i]? = some nd ∧
      ∀ nm w, nd.value = .vident nm w → fs.lookup nm = none) :
    fstructFromList f a l fs loc st = .ok st := by
  induction l generalizing f st with
  | nil =>
    match f, hf with
    | f+1, _ => rfl
  | cons i l ih =>
    match f, hf with
    | f+1, hf =>
      obtain ⟨nd, hget, hnm⟩ := hdrop i (List.mem_cons_self i l)
      have hrest : ∀ j ∈ l, ∃ nd, a[j]? = some nd ∧
          ∀ nm w, nd.value = .vident nm w → fs.lookup nm = none :=
        fun j hj => hdrop j (List.mem_cons_of_mem i hj)
      have hlen : l.length < f := by simpa using Nat.lt_of_succ_lt_succ hf
      cases hv : nd.value with
      | vident nm w =>
        have hnone : fs.lookup nm = none := hnm nm w hv
        simp only [fstructFromList, hget, hv, hnone]
        exact ih f st hlen hrest
      | vnone => simp only [fstructFromList, hget, hv]; exact ih f st hlen hrest
      | vint n => simp only [fstructFromList, hget, hv]; exact ih f st hlen hrest
      | vstr s => simp only [fstructFromList, hget, hv]; exact ih f st hlen hrest
      | vlabel s => simp only [fstructFromList, hget, hv]; exact ih f st hlen hrest

/-- Witness for C8: a node carrying field name `X` (absent from the
destination record, whose only field is `Y`) and a node with no
`IdentValue` wrapper are both dropped; the destination field `Y` stays at
its default value 0. -/
theorem c8_witness :
    fstructFromList 5 [⟨"", .vident "X" (.vint 1), none⟩, ⟨"", .vnone, some []⟩]
      [0, 1] [("Y", .tint)] ⟨1, []⟩
      ⟨[(0, .dptr (some 1)), (1, .dstruct [("Y", .dint 0)])], 2, []⟩
      = .ok ⟨[(0, .dptr (some 1)), (1, .dstruct [("Y", .dint 0)])], 2, []⟩ ∧
    readLoc [(0, .dptr (some 1)), (1, .dstruct [("Y", .dint 0)])] ⟨1, [.pfield "Y"]⟩
      = some (.dint 0) := by
  constructor
  · apply c8_field_dropping
    · decide
    · intro i hi
      simp only [List.mem_cons, List.not_mem_nil, or_false] at hi
      rcases hi with rfl | rfl
      · exact ⟨⟨"", .vident "X" (.vint 1), none⟩, rfl, by
          intro nm w hw
          cases hw
          rfl⟩
      · exact ⟨⟨"", .vnone, some []⟩, rfl, by intro nm w hw; cases hw⟩
  · rfl

/-- Validity of a consumed rune per the claim: one of the four whitespace
runes, or a rune outside the control range `0x00–0x19` that is not the
Unicode replacement (invalid-encoding) rune. -/
def ValidCh (c : Char) : Prop :=
  c = '\t' ∨ c = ' ' ∨ c = '\r' ∨ c = '\n' ∨ (¬ c.toNat ≤ 0x19 ∧ c ≠ Char.ofNat 0xFFFD)

instance : DecidablePred ValidCh := fun c => by unfold ValidCh; infer_instance

/-- C6 (amended): (a) `next` accepts a consumed rune iff it is valid in
the claim's sense — space, tab, CR, LF, or outside the control range
`0x00–0x19` and not a replacement code point — and records the fatal
`InvalidCodePoint` error otherwise; (b) once that error is recorded, at
every later `Scan` boundary the scanner only drains already-queued tokens
— the partial token of the offending line among them — and produces no
new ones, reporting false when the queue is empty; (c) `Err` reports an
error only for `InvalidCodePoint` and `MismatchedIndent` — ordinary end
of input (`io.EOF`) reports none. -/
theorem c6_amended_char_validation :
    (∀ (st : ScSt) (c : Char) (rest : List Char), st.input = c :: rest →
      (ValidCh c →
        nextF st = (true, { st with ch := c, input := rest, err := .noErr })) ∧
      (¬ ValidCh c →
        nextF st = (false, { st with ch := c, input := rest, err := .invalidCodePoint }))) ∧
    (∀ (f : Nat) (st : ScSt), st.err = .invalidCodePoint →
      ∃ b, scanStep f st = some (b, { st with toks := st.toks.tail }) ∧
        (b = true ↔ st.toks.tail ≠ [])) ∧
    (∀ st : ScSt,
      (errF st = none ↔ st.err = .noErr ∨ st.err = .eofErr) ∧
      ∀ e, errF st = some e → e = .invalidCodePoint ∨ e = .mismatchIndent) := by
  refine ⟨?_, ?_, ?_⟩
  · intro st c rest hin
    constructor
    · intro hv
      rcases hv with rfl | rfl | rfl | rfl | ⟨hrange, hrepl⟩
      · simp [nextF, hin]
      · simp [nextF, hin]
      · simp [nextF, hin]
      · simp [nextF, hin]
      · simp only [nextF, hin]
        by_cases hws : c = '\t' ∨ c = ' ' ∨ c = '\r' ∨ c = '\n'
        · rw [if_pos hws]
        · rw [if_neg hws, if_neg hrepl, if_neg hrange]
    · intro hv
      have hws : ¬ (c = '\t' ∨ c = ' ' ∨ c = '\r' ∨ c = '\n') := by
        intro hw
        exact hv (by rcases hw with rfl | rfl | rfl | rfl <;> simp [ValidCh])
      simp only [nextF, hin]
      rw [if_neg hws]
      by_cases hrepl : c = Char.ofNat 0xFFFD
      · rw [if_pos hrepl]
      · rw [if_neg hrepl]
        have hrange : c.toNat ≤ 0x19 := by
          by_contra hr
          exact hv (Or.inr (Or.inr (Or.inr (Or.inr ⟨hr, hrepl⟩))))
        rw [if_pos hrange]
  · intro f st herr
    unfold scanStep
    by_cases ht : ({ st with toks := st.toks.tail } : ScSt).toks ≠ []
    · refine ⟨true, ?_, by simp_all⟩
      rw [if_pos ht]
    · refine ⟨false, ?_, by simp_all⟩
      rw [if_neg ht, if_pos (by rw [herr]; decide)]
  · intro st
    cases h : st.err <;> simp [errF, h]

/-- Witness for C6 (amended): the control rune `0x01` is rejected and
recorded as `InvalidCodePoint`; a scanner already in that error state
only drains its queue and then stops; `Err` masks `io.EOF`. -/
theorem c6_witness :
    nextF ⟨[Char.ofNat 1], Char.ofNat 0, [""], [], .noErr⟩
      = (false, ⟨[], Char.ofNat 1, [""], [], .invalidCodePoint⟩) ∧
    (∃ b, scanStep 5 ⟨[], Char.ofNat 1, [""], [⟨.lineString, "a"⟩], .invalidCodePoint⟩
      = some (b, ⟨[], Char.ofNat 1, [""], [], .invalidCodePoint⟩) ∧
      (b = true ↔ ([] : List Token) ≠ [])) ∧
    errF ⟨[], Char.ofNat 0, [""], [], .eofErr⟩ = none := by
  refine ⟨?_, ?_, ?_⟩
  · exact (c6_amended_char_validation.1 ⟨[Char.ofNat 1], Char.ofNat 0, [""], [], .noErr⟩
      (Char.ofNat 1) [] rfl).2 (by decide)
  · exact c6_amended_char_validation.2.1 5
      ⟨[], Char.ofNat 1, [""], [⟨.lineString, "a"⟩], .invalidCodePoint⟩ rfl
  · exact (c6_amended_char_validation.2.2 ⟨[], Char.ofNat 0, [""], [], .eofErr⟩).1.mpr (Or.inr rfl)

/-- C6 counterexample: the original claim says the fatal
`InvalidCodePoint` error is followed by no further tokens, but on the
input `"ab\x01cd"` the failing `next` inside `inline` records the error
and returns the partial line, `afterIndent` still enqueues it, and `Scan`
returns true delivering `LineString "ab"` while `Err` already reports
`InvalidCodePoint`; only the next `Scan` stops. -/
theorem c6_counterexample :
    scanStep 50 (initSc ['a', 'b', Char.ofNat 1, 'c', 'd'])
      = some (true,
          ⟨['c', 'd'], Char.ofNat 1, [""], [⟨.lineString, "ab"⟩], .invalidCodePoint⟩) ∧
    tokenF ⟨['c', 'd'], Char.ofNat 1, [""], [⟨.lineString, "ab"⟩], .invalidCodePoint⟩
      = ⟨.lineString, "ab"⟩ ∧
    errF ⟨['c', 'd'], Char.ofNat 1, [""], [⟨.lineString, "ab"⟩], .invalidCodePoint⟩
      = some .invalidCodePoint ∧
    scanStep 50 ⟨['c', 'd'], Char.ofNat 1, [""], [⟨.lineString, "ab"⟩], .invalidCodePoint⟩
      = some (false, ⟨['c', 'd'], Char.ofNat 1, [""], [], .invalidCodePoint⟩) :=
  ⟨rfl, rfl, rfl, rfl⟩

/-- Characterization of the `calcIndent` search loop, both outcomes, by
induction on the remaining search range: a hit is the least matching
position at or after the start index; a miss means no position in range
matches. -/
theorem findBackAux_spec (ins : List String) (ind : String) :
    ∀ d i, ins.length - i ≤ d →
      (∀ k, findBackAux ins ind d i = some k →
        i ≤ k ∧ k < ins.length ∧ ins.getD (ins.length - 1 - k) "" = ind ∧
        ∀ j, i ≤ j → j < k → ins.getD (ins.length - 1 - j) "" ≠ ind) ∧
      (findBackAux ins ind d i = none →
        ∀ j, i ≤ j → j < ins.length → ins.getD (ins.length - 1 - j) "" ≠ ind) := by
  intro d
  induction d with
  | zero =>
    intro i hi
    constructor
    · intro k hk
      cases hk
    · intro _ j hij hj
      omega
  | succ d ihd =>
    intro i hi
    by_cases hlt : i < ins.length
    · by_cases hhit : ins.getD (ins.length - 1 - i) "" = ind
      · constructor
        · intro k hk
          rw [findBackAux, if_pos hlt, if_pos hhit] at hk
          cases hk
          exact ⟨Nat.le_refl i, hlt, hhit, fun j h1 h2 => by omega⟩
        · intro hk
          rw [findBackAux, if_pos hlt, if_pos hhit] at hk
          cases hk
      · have hrec := ihd (i+1) (by omega)
        constructor
        · intro k hk
          rw [findBackAux, if_pos hlt, if_neg hhit] at hk
          obtain ⟨h1, h2, h3, h4⟩ := hrec.1 k hk
          refine ⟨by omega, h2, h3, ?_⟩
          intro j hij hjk
          rcases Nat.eq_or_lt_of_le hij with rfl | hgt
          · exact hhit
          · exact h4 j hgt hjk
        · intro hk
          rw [findBackAux, if_pos hlt, if_neg hhit] at hk
          intro j hij hj
          rcases Nat.eq_or_lt_of_le hij with rfl | hgt
          · exact hhit
          · exact hrec.2 hk j hgt hj
    · constructor
      · intro k hk
        rw [findBackAux, if_neg hlt] at hk
        cases hk
      · intro _ j hij hj
        omega

/-- C5: when the measured indent string equals neither the stack top nor a
prefix-extension of it, `scanLine` resolves it through the downward search
of `calcIndent`: a hit `k` levels below the top pops exactly `k` entries
(`s.indents[:len-k]`) and emits exactly `k` `Unindent` tokens (and `k` is
the *least* matching depth, i.e. the first found searching from the top);
a miss leaves the state unchanged except for recording the fatal
`mismatch indent` error. -/
theorem c5_dedent_search (f : Nat) (st : ScSt) (ind : String) (st₁ : ScSt)
    (hscan : scanIndentF f st = some (ind, true, st₁))
    (hne : ind ≠ st₁.indents.getLastD "")
    (hpre : hasPrefixGo ind (st₁.indents.getLastD "") = false) :
    (∀ k, findBack st₁.indents ind = some k →
      scanLineF f st = some { st₁ with
          indents := st₁.indents.take (st₁.indents.length - k),
          toks := st₁.toks ++ List.replicate k ⟨.unindent, ""⟩ } ∧
      1 ≤ k ∧ k < st₁.indents.length ∧
      st₁.indents.getD (st₁.indents.length - 1 - k) "" = ind ∧
      (∀ j, 1 ≤ j → j < k → st₁.indents.getD (st₁.indents.length - 1 - j) "" ≠ ind)) ∧
    (findBack st₁.indents ind = none →
      scanLineF f st = some { st₁ with err := .mismatchIndent } ∧
      (∀ j, 1 ≤ j → j < st₁.indents.length →
        st₁.indents.getD (st₁.indents.length - 1 - j) "" ≠ ind)) := by
  constructor
  · intro k hk
    obtain ⟨h1, h2, h3, h4⟩ :=
      (findBackAux_spec st₁.indents ind st₁.indents.length 1 (by omega)).1 k hk
    have hcalc : calcIndentGo st₁.indents ind = (-(k : Int), true) := by
      simp only [calcIndentGo]
      rw [if_neg hne, if_neg (by rw [hpre]; decide), hk]
    have hn0 : ¬ (-(k : Int) = 0) := by omega
    have hn1 : ¬ (-(k : Int) = 1) := by omega
    refine ⟨?_, h1, h2, h3, h4⟩
    simp only [scanLineF, hscan, hcalc, if_neg hn0, if_neg hn1]
    have : (-(-(k : Int))).toNat = k := by omega
    rw [this]
  · intro hk
    have hcalc : calcIndentGo st₁.indents ind = (0, false) := by
      simp only [calcIndentGo]
      rw [if_neg hne, if_neg (by rw [hpre]; decide), hk]
    refine ⟨?_, ?_⟩
    · simp only [scanLineF, hscan, hcalc]
    · exact (findBackAux_spec st₁.indents ind st₁.indents.length 1 (by omega)).2 hk

/-- Witness for C5, the spec's dedent-failure example: stack `["", "  "]`
and a new line of indent `" "` (matching no entry and extending none)
fails with the mismatched-indent error. -/
theorem c5_witness :
    scanIndentF 10 ⟨" x".data, Char.ofNat 0, ["", "  "], [], .noErr⟩
      = some (" ", true, ⟨['x'], 'x', ["", "  "], [], .noErr⟩) ∧
    scanLineF 10 ⟨" x".data, Char.ofNat 0, ["", "  "], [], .noErr⟩
      = some ⟨['x'], 'x', ["", "  "], [], .mismatchIndent⟩ := by
  constructor
  · rfl
  · exact ((c5_dedent_search 10 ⟨" x".data, Char.ofNat 0, ["", "  "], [], .noErr⟩ " "
      ⟨['x'], 'x', ["", "  "], [], .noErr⟩ rfl (by decide) (by decide)).2 rfl).1

/-- Number of labelled nodes in an arena. -/
def labelCount (a : List MNode) : Nat :=
  (a.filter (fun nd => nd.label != "")).length

/-- Source heap for the shared-reference record scenario: address 5 holds
the shared int target `7`. -/
def c1Heap : SHeap := fun _ => .sint 7

/-- The record `struct { A, B *int }` with both fields referencing
address 5; `B` is discovered after `A`'s target is fully built. -/
def c1Val : SVal := .sstruct [("A", .sptr (some 5)), ("B", .sptr (some 5))]

/-- Destination type of the record. -/
def c1Ty : Ty := .tstruct [("A", .tptr .tint), ("B", .tptr .tint)]

/-- The arena `New` produces for `c1Val`: the shared target's node (label
`"1"`, value wrapped as field `A`) and the back-reference node for `B`,
whose label leaf got wrapped as `IdentValue{B, Label "1"}`. -/
def c1Arena : List MNode :=
  [⟨"1", .vident "A" (.vint 7), none⟩, ⟨"", .vident "B" (.vlabel "1"), none⟩]

/-- The filler state `Fill` produces for `c1Arena` into `c1Ty`: field `A`
points at cell 2 (holding 7), field `B` at a freshly allocated cell 3
left at the zero value 0. -/
def c1FillSt : FSt :=
  ⟨[(0, .dptr (some 1)),
    (1, .dstruct [("A", .dptr (some 2)), ("B", .dptr (some 3))]),
    (2, .dint 7), (3, .dint 0)], 4, [("1", ⟨1, [.pfield "A"]⟩)]⟩

/-- C1 fails on the code: for the shared-reference record, `New` does
assign exactly one label, but `Fill` does *not* reconstruct both fields as
references to the identical destination object — the two fields end up as
pointers to different cells (which do not even hold equal values). -/
theorem c1_counterexample :
    NewM 12 c1Heap (some c1Val) = .ok (⟨c1Arena, [(5, 0)], 2⟩, [0, 1]) ∧
    labelCount c1Arena = 1 ∧
    FillM 12 c1Arena [0, 1] c1Ty = .ok c1FillSt ∧
    ¬ readLoc c1FillSt.heap ⟨1, [.pfield "A"]⟩
        = readLoc c1FillSt.heap ⟨1, [.pfield "B"]⟩ := by
  refine ⟨rfl, rfl, rfl, ?_⟩
  have hA : readLoc c1FillSt.heap ⟨1, [.pfield "A"]⟩ = some (.dptr (some 2)) := rfl
  have hB : readLoc c1FillSt.heap ⟨1, [.pfield "B"]⟩ = some (.dptr (some 3)) := rfl
  intro hx
  rw [hA, hB] at hx
  simp at hx

/-- C1 amended: `New` assigns exactly one label to the shared target's
node (mutated in place to carry label `"1"`), and `Fill` reconstructs the
first-encountered field normally (a pointer to a cell holding the shared
value 7); but the second field's back-reference leaf is wrapped in a
`FieldTaggedValue`, which `ptrFromNode` does not recognize as a
back-reference, so the second field gets a freshly allocated target left
at the zero value — an object distinct from the first field's target. -/
theorem c1_amended_shared_record :
    NewM 12 c1Heap (some c1Val) = .ok (⟨c1Arena, [(5, 0)], 2⟩, [0, 1]) ∧
    labelCount c1Arena = 1 ∧
    (c1Arena.getD 0 ⟨"", .vnone, none⟩).label = "1" ∧
    FillM 12 c1Arena [0, 1] c1Ty = .ok c1FillSt ∧
    readLoc c1FillSt.heap ⟨1, [.pfield "A"]⟩ = some (.dptr (some 2)) ∧
    heapGet c1FillSt.heap 2 = some (.dint 7) ∧
    readLoc c1FillSt.heap ⟨1, [.pfield "B"]⟩ = some (.dptr (some 3)) ∧
    heapGet c1FillSt.heap 3 = some (.dint 0) ∧
    (2 : Nat) ≠ 3 :=
  ⟨rfl, rfl, rfl, rfl, rfl, rfl, rfl, rfl, by decide⟩

/-- Propagating non-fuel-ness through `Except.bind`: if the first step is
not the fuel artifact and every successful continuation is not either,
neither is the composite. -/
theorem isFuelN_bind {α β : Type} (x : Except MErr α) (g : α → Except MErr β)
    (hx : isFuelN x = false) (hg : ∀ a, x = .ok a → isFuelN (g a) = false) :
    isFuelN (x.bind g) = false := by
  cases x with
  | error e =>
    cases e with
    | goErr m => rfl
    | fuel => simp [isFuelN] at hx
  | ok a => exact hg a rfl

/-- The maker never runs out of fuel on an input whose full unfolding
(ignoring the identity map) finishes within the same fuel: the identity
map can only prune recursion, never extend it. Stated for all five
mutually recursive maker functions at once. -/
theorem unfold_dominates : ∀ f : Nat,
    (∀ (h : SHeap) (st : MakerSt) (v : SVal),
      unfoldList f h v = true → isFuelN (mlist f h st v) = false) ∧
    (∀ (h : SHeap) (st : MakerSt) (es : List SVal),
      unfoldSliceAux f h es = true → isFuelN (mlistFromSlice f h st es) = false) ∧
    (∀ (h : SHeap) (st : MakerSt) (fs : List (String × SVal)),
      unfoldStructAux f h fs = true → isFuelN (mlistFromStruct f h st fs) = false) ∧
    (∀ (h : SHeap) (st : MakerSt) (v : SVal),
      unfoldNode f h v = true → isFuelN (mnode f h st v) = false) ∧
    (∀ (h : SHeap) (st : MakerSt) (a : Option Nat),
      unfoldFromPtr f h a = true → isFuelN (mnodeFromPtr f h st a) = false) := by
  intro f
  induction f with
  | zero =>
    refine ⟨?_, ?_, ?_, ?_, ?_⟩ <;> intro h st x hu <;> cases hu
  | succ f ih =>
    obtain ⟨ihList, ihSlice, ihStruct, ihNode, ihPtr⟩ := ih
    refine ⟨?_, ?_, ?_, ?_, ?_⟩
    · intro h st v hu
      cases v with
      | sint n =>
        simp only [unfoldList] at hu
        simp only [mlist]
        exact isFuelN_bind _ _ (ihNode h st _ hu) (fun a _ => rfl)
      | sstr s =>
        simp only [unfoldList] at hu
        simp only [mlist]
        exact isFuelN_bind _ _ (ihNode h st _ hu) (fun a _ => rfl)
      | sslice es =>
        simp only [unfoldList] at hu
        simp only [mlist]
        exact ihSlice h st es hu
      | sstruct fs =>
        simp only [unfoldList] at hu
        simp only [mlist]
        exact ihStruct h st fs hu
      | sptr a =>
        simp only [unfoldList] at hu
        simp only [mlist]
        cases hin : indirectF f h (.sptr a) with
        | none => rw [hin] at hu; exact absurd hu Bool.false_ne_true
        | some v' => rw [hin] at hu; exact ihList h st v' hu
      | sother => rfl
    · intro h st es hu
      cases es with
      | nil => rfl
      | cons e es =>
        simp only [unfoldSliceAux, Bool.and_eq_true] at hu
        simp only [mlistFromSlice]
        refine isFuelN_bind _ _ (ihNode h st e hu.1) ?_
        rintro ⟨st', i⟩ _
        exact isFuelN_bind _ _ (ihSlice h st' es hu.2) (fun a _ => rfl)
    · intro h st fs hu
      cases fs with
      | nil => rfl
      | cons nf fs =>
        obtain ⟨nm, e⟩ := nf
        simp only [unfoldStructAux, Bool.and_eq_true] at hu
        simp only [mlistFromStruct]
        refine isFuelN_bind _ _ (ihNode h st e hu.1) ?_
        rintro ⟨st', i⟩ _
        exact isFuelN_bind _ _ (ihStruct h _ fs hu.2) (fun a _ => rfl)
    · intro h st v hu
      cases v with
      | sint n => rfl
      | sstr s => rfl
      | sslice es =>
        simp only [unfoldNode] at hu
        simp only [mnode]
        exact isFuelN_bind _ _ (ihList h st _ hu) (fun a _ => rfl)
      | sptr a =>
        simp only [unfoldNode] at hu
        simp only [mnode]
        exact ihPtr h st a hu
      | sstruct fs => rfl
      | sother => rfl
    · intro h st a hu
      cases a with
      | none => rfl
      | some a =>
        simp only [unfoldFromPtr] at hu
        simp only [mnodeFromPtr]
        cases hml : mlabel st a with
        | mk st' olbl =>
          cases olbl with
          | some lbl => rfl
          | none =>
            cases hin : indirectF f h (.sptr (some a)) with
            | none => rw [hin] at hu; exact absurd hu Bool.false_ne_true
            | some v' =>
              rw [hin] at hu
              exact isFuelN_bind _ _ (ihNode h st' v' hu) (fun a _ => rfl)

/-- Source heap realizing a true ancestor-cycle: address 1 holds a slice
whose single element is a pointer back to address 1 (Go:
`type S []*S; var s S; s = S{&s}`). -/
def cycHeap : SHeap := fun _ => .sslice [.sptr (some 1)]

/-- The pointer into `cycHeap`'s cycle. -/
def cycVal : SVal := .sptr (some 1)

/-- A fuel-exhausted first step forces the composite to be fuel-exhausted. -/
theorem bind_fuel {α β : Type} (x : Except MErr α) (g : α → Except MErr β)
    (hx : x = .error .fuel) : x.bind g = .error .fuel := by
  rw [hx]
  rfl

/-- On the cyclic input, every maker function on the cycle diverges (for
every fuel, the run is cut short by fuel exhaustion) as long as address 1
is not in the identity map — and it never is, because `nodeFromPtr`
registers the address only *after* the recursive build returns, which
never happens. -/
theorem cycle_diverges : ∀ f : Nat,
    (∀ st : MakerSt, st.idmap.lookup 1 = none →
      mnodeFromPtr f cycHeap st (some 1) = .error .fuel) ∧
    (∀ st : MakerSt, st.idmap.lookup 1 = none →
      mnode f cycHeap st (.sptr (some 1)) = .error .fuel) ∧
    (∀ st : MakerSt, st.idmap.lookup 1 = none →
      mlistFromSlice f cycHeap st [.sptr (some 1)] = .error .fuel) ∧
    (∀ st : MakerSt, st.idmap.lookup 1 = none →
      mlist f cycHeap st (.sslice [.sptr (some 1)]) = .error .fuel) ∧
    (∀ st : MakerSt, st.idmap.lookup 1 = none →
      mnode f cycHeap st (.sslice [.sptr (some 1)]) = .error .fuel) := by
  intro f
  induction f with
  | zero => exact ⟨fun _ _ => rfl, fun _ _ => rfl, fun _ _ => rfl, fun _ _ => rfl,
      fun _ _ => rfl⟩
  | succ f ih =>
    obtain ⟨ih1, ih2, ih3, ih4, ih5⟩ := ih
    have hind : indirectF f cycHeap (.sptr (some 1)) = none ∨
        indirectF f cycHeap (.sptr (some 1)) = some (.sslice [.sptr (some 1)]) := by
      match f with
      | 0 => exact Or.inl rfl
      | 1 => exact Or.inl rfl
      | k+2 => exact Or.inr rfl
    refine ⟨?_, ?_, ?_, ?_, ?_⟩
    · intro st hlk
      have hml : mlabel st 1 = (st, none) := by simp [mlabel, hlk]
      simp only [mnodeFromPtr, hml]
      rcases hind with hind | hind
      · rw [hind]
      · rw [hind]
        exact bind_fuel _ _ (ih5 st hlk)
    · intro st hlk
      simp only [mnode]
      exact ih1 st hlk
    · intro st hlk
      simp only [mlistFromSlice]
      rw [show mnode f cycHeap st (.sptr (some 1)) = .error .fuel from ih2 st hlk]
      rfl
    · intro st hlk
      simp only [mlist]
      exact ih3 st hlk
    · intro st hlk
      simp only [mnode]
      rw [show mlist f cycHeap st (.sslice [.sptr (some 1)]) = .error .fuel
        from ih4 st hlk]
      rfl

/-- C3: registration after the recursive build makes `New` terminate on
every value graph whose full unfolding is finite (no value reached again
from within its own construction — the identity map can only prune the
recursion that the finite unfolding bounds), while on the cyclic input
`cycVal`/`cycHeap` — a value reached again from within its own
construction — `New` recurses without bound: no fuel ever suffices, and
the cyclic structure is never rejected with an error value. -/
theorem c3_registration_termination :
    (∀ (f : Nat) (h : SHeap) (st : MakerSt) (v : SVal),
      unfoldList f h v = true → isFuelN (mlist f h st v) = false) ∧
    (∀ f : Nat, NewM f cycHeap (some cycVal) = .error .fuel) := by
  constructor
  · intro f h st v hu
    exact (unfold_dominates f).1 h st v hu
  · intro f
    match f with
    | 0 => rfl
    | f+1 =>
      show mlist (f+1) cycHeap mkMaker (.sptr (some 1)) = .error .fuel
      have hind : indirectF f cycHeap (.sptr (some 1)) = none ∨
          indirectF f cycHeap (.sptr (some 1)) = some (.sslice [.sptr (some 1)]) := by
        match f with
        | 0 => exact Or.inl rfl
        | 1 => exact Or.inl rfl
        | k+2 => exact Or.inr rfl
      simp only [mlist]
      rcases hind with hind | hind
      · rw [hind]
      · rw [hind]
        exact (cycle_diverges f).2.2.2.1 mkMaker rfl

/-- Witness for C3: a finite unfolding implies a non-fuel run at concrete
inputs, and at fuel 7 the cyclic input is cut short by fuel. -/
theorem c3_witness :
    unfoldList 9 (fun _ => .sint 0) (.sslice [.sint 3]) = true ∧
    isFuelN (mlist 9 (fun _ => .sint 0) mkMaker (.sslice [.sint 3])) = false ∧
    NewM 7 cycHeap (some cycVal) = .error .fuel :=
  ⟨rfl, c3_registration_termination.1 9 (fun _ => .sint 0) mkMaker (.sslice [.sint 3]) rfl,
   c3_registration_termination.2 7⟩

/-! ## Claim C2: round trip on the acyclic int/string/sequence fragment -/

/-- A Go value built only from integers, strings and (homogeneous) ordered
sequences, together with its Go type: the fragment of claim C2 (no
references, no records). -/
inductive HasSimpleTy : SVal → Ty → Prop
  | int (n : Int) : HasSimpleTy (.sint n) .tint
  | str (s : String) : HasSimpleTy (.sstr s) .tstr
  | slice (es : List SVal) (t : Ty) :
      (∀ e ∈ es, HasSimpleTy e t) → HasSimpleTy (.sslice es) (.tslice t)

mutual

/-- Fuel bound sufficient to build (and to fill) a simple value. -/
def szV : SVal → Nat
  | .sslice es => 2 + szL es
  | _ => 1

/-- Fuel bound for a list of elements. -/
def szL : List SVal → Nat
  | [] => 1
  | e :: es => 1 + szV e + szL es

end

mutual

/-- The destination value that a faithful reconstruction of a simple
source value holds (deep equality up to the source/destination change of
representation). -/
def toD : SVal → DVal
  | .sint n => .dint n
  | .sstr s => .dstr s
  | .sslice es => .dslice (toDList es)
  | _ => .dother

/-- `toD` on each element. -/
def toDList : List SVal → List DVal
  | [] => []
  | e :: es => toD e :: toDList es

end

/-- The node at arena index `i` is the tree the maker builds for the
simple value `v`: unlabelled leaf for a scalar, unlabelled child-owning
node for a sequence. -/
inductive Represents : List MNode → Nat → SVal → Prop
  | int (a : List MNode) (i : Nat) (n : Int) :
      a[i]? = some ⟨"", .vint n, none⟩ → Represents a i (.sint n)
  | str (a : List MNode) (i : Nat) (s : String) :
      a[i]? = some ⟨"", .vstr s, none⟩ → Represents a i (.sstr s)
  | slice (a : List MNode) (i : Nat) (es : List SVal) (ids : List Nat) :
      a[i]? = some ⟨"", .vnone, some ids⟩ →
      ids.length = es.length →
      (∀ j, j < es.length → Represents a (ids.getD j 0) (es.getD j .sother)) →
      Represents a i (.sslice es)

/-- A successful indexed lookup is preserved by appending on the right. -/
theorem getElem?_append_of_some {α : Type} {l₁ : List α} (l₂ : List α) {i : Nat} {x : α}
    (h : l₁[i]? = some x) : (l₁ ++ l₂)[i]? = some x := by
  have hi : i < l₁.length := by
    by_contra hl
    rw [List.getElem?_eq_none (by omega)] at h
    cases h
  rw [List.getElem?_append, if_pos hi]
  exact h

/-- `Represents` only inspects existing arena entries, so it survives
growing the arena on the right. -/
theorem Represents_append {a : List MNode} (ext : List MNode) {i : Nat} {v : SVal}
    (h : Represents a i v) : Represents (a ++ ext) i v := by
  induction h with
  | int i n hg => exact .int _ _ _ (getElem?_append_of_some ext hg)
  | str i s hg => exact .str _ _ _ (getElem?_append_of_some ext hg)
  | slice i es ids hg hlen hrec ih =>
    exact .slice _ _ _ _ (getElem?_append_of_some ext hg) hlen (fun j hj => ih j hj)

/-- Looking up a field after `setAssoc` on that field yields the new
value. -/
theorem lookup_setAssoc_self {fs : List (String × DVal)} {nm : String} {w : DVal}
    (x : DVal) (h : fs.lookup nm = some w) : (setAssoc fs nm x).lookup nm = some x := by
  induction fs with
  | nil => cases h
  | cons kv fs ih =>
    obtain ⟨k, v⟩ := kv
    by_cases hk : k = nm
    · subst hk
      simp [setAssoc, List.lookup]
    · have hb : (nm == k) = false := by
        simp only [beq_eq_false_iff_ne, ne_eq]
        exact fun he => hk he.symm
      simp only [List.lookup_cons, hb] at h
      simp only [setAssoc, if_neg hk, List.lookup_cons, hb]
      exact ih h

/-- Writing back the value a field already holds leaves the field list
unchanged. -/
theorem setAssoc_self {fs : List (String × DVal)} {nm : String} {w : DVal}
    (h : fs.lookup nm = some w) : setAssoc fs nm w = fs := by
  induction fs with
  | nil => rfl
  | cons kv fs ih =>
    obtain ⟨k, v⟩ := kv
    by_cases hk : k = nm
    · subst hk
      have hb : (k == k) = true := by simp
      simp only [List.lookup_cons, hb] at h
      cases h
      simp [setAssoc]
    · have hb : (nm == k) = false := by
        simp only [beq_eq_false_iff_ne, ne_eq]
        exact fun he => hk he.symm
      simp only [List.lookup_cons, hb] at h
      simp only [setAssoc, if_neg hk]
      rw [ih h]

/-- Two successive `setAssoc` on the same field collapse to the last. -/
theorem setAssoc_setAssoc (fs : List (String × DVal)) (nm : String) (x y : DVal) :
    setAssoc (setAssoc fs nm x) nm y = setAssoc fs nm y := by
  induction fs with
  | nil => rfl
  | cons kv fs ih =>
    obtain ⟨k, v⟩ := kv
    by_cases hk : k = nm
    · simp [setAssoc, hk]
    · simp only [setAssoc, if_neg hk]
      rw [ih]

/-- A successful indexed lookup survives `List.set` at that index, giving
the new value. -/
theorem getElem?_set_of_some {α : Type} {l : List α} {i : Nat} {w : α} (x : α)
    (h : l[i]? = some w) : (l.set i x)[i]? = some x := by
  induction l generalizing i with
  | nil => cases h
  | cons b l ih =>
    cases i with
    | zero => simp [List.set]
    | succ i =>
      simp only [List.getElem?_cons_succ] at h
      simp only [List.set, List.getElem?_cons_succ]
      exact ih h

/-- Setting an index to the value it already holds is the identity. -/
theorem set_of_getElem?_self {α : Type} {l : List α} {i : Nat} {w : α}
    (h : l[i]? = some w) : l.set i w = l := by
  induction l generalizing i with
  | nil => rfl
  | cons b l ih =>
    cases i with
    | zero =>
      simp only [List.getElem?_cons_zero] at h
      cases h
      rfl
    | succ i =>
      simp only [List.getElem?_cons_succ] at h
      simp only [List.set]
      rw [ih h]

/-- Setting the appended last element of `l ++ [z]`. -/
theorem set_concat_length {α : Type} (l : List α) (z x : α) :
    (l ++ [z]).set l.length x = l ++ [x] := by
  induction l with
  | nil => rfl
  | cons b l ih =>
    simp only [List.cons_append, List.length_cons, List.set]
    show b :: (l ++ [z]).set l.length x = b :: (l ++ [x])
    rw [ih]

/-- Core path-write facts, all by one induction on the path: if the slot
is readable then writing succeeds, reads back the written value, writing
the current value is the identity, and a second write absorbs the
first. -/
theorem writePath_spec : ∀ (p : List PE) (v u x : DVal), readPath v p = some u →
    ∃ v', writePath v p x = some v' ∧ readPath v' p = some x ∧
      writePath v p u = some v ∧ ∀ y, writePath v' p y = writePath v p y := by
  intro p
  induction p with
  | nil =>
    intro v u x h
    simp only [readPath] at h
    cases h
    refine ⟨x, ?_, ?_, ?_, fun y => ?_⟩ <;> simp [writePath, readPath]
  | cons pe p ih =>
    intro v u x h
    cases pe with
    | pfield nm =>
      cases v with
      | dstruct fs =>
        simp only [readPath] at h
        cases hlk : fs.lookup nm with
        | none => rw [hlk] at h; cases h
        | some w =>
          rw [hlk] at h
          obtain ⟨w', hw1, hw2, hw3, hw4⟩ := ih w u x h
          refine ⟨.dstruct (setAssoc fs nm w'), ?_, ?_, ?_, ?_⟩
          · simp only [writePath, hlk, hw1, Option.bind_eq_bind, Option.some_bind]
          · simp only [readPath, lookup_setAssoc_self w' hlk]
            exact hw2
          · simp only [writePath, hlk, hw3, Option.bind_eq_bind, Option.some_bind]
            rw [setAssoc_self hlk]
          · intro y
            simp only [writePath, hlk, lookup_setAssoc_self w' hlk,
              Option.bind_eq_bind, Option.some_bind]
            rw [hw4 y]
            cases writePath w p y with
            | none => rfl
            | some z =>
              simp only [Option.some_bind]
              rw [setAssoc_setAssoc]
      | dint n => exact Option.noConfusion h
      | dstr s => exact Option.noConfusion h
      | dslice es => exact Option.noConfusion h
      | dptr a => exact Option.noConfusion h
      | dother => exact Option.noConfusion h
    | pindex j =>
      cases v with
      | dslice es =>
        simp only [readPath] at h
        cases hlk : es[j]? with
        | none => rw [hlk] at h; cases h
        | some w =>
          rw [hlk] at h
          obtain ⟨w', hw1, hw2, hw3, hw4⟩ := ih w u x h
          refine ⟨.dslice (es.set j w'), ?_, ?_, ?_, ?_⟩
          · simp only [writePath, hlk, hw1, Option.bind_eq_bind, Option.some_bind]
          · simp only [readPath, getElem?_set_of_some w' hlk]
            exact hw2
          · simp only [writePath, hlk, hw3, Option.bind_eq_bind, Option.some_bind]
            rw [set_of_getElem?_self hlk]
          · intro y
            simp only [writePath, hlk, getElem?_set_of_some w' hlk,
              Option.bind_eq_bind, Option.some_bind]
            rw [hw4 y]
            cases writePath w p y with
            | none => rfl
            | some z =>
              simp only [Option.some_bind]
              rw [List.set_set]
      | dint n => exact Option.noConfusion h
      | dstr s => exact Option.noConfusion h
      | dstruct fs => exact Option.noConfusion h
      | dptr a => exact Option.noConfusion h
      | dother => exact Option.noConfusion h

/-- Looking up a cell after `heapSet` on that cell yields the new value. -/
theorem lookup_heapSet_self {H : List (Nat × DVal)} {a : Nat} {w : DVal}
    (x : DVal) (h : H.lookup a = some w) : (heapSet H a x).lookup a = some x := by
  induction H with
  | nil => cases h
  | cons kv H ih =>
    obtain ⟨b, v⟩ := kv
    by_cases hb : b = a
    · subst hb
      simp [heapSet, List.lookup]
    · have hbe : (a == b) = false := by
        simp only [beq_eq_false_iff_ne, ne_eq]
        exact fun he => hb he.symm
      simp only [List.lookup_cons, hbe] at h
      simp only [heapSet, if_neg hb, List.lookup_cons, hbe]
      exact ih h

/-- Writing back a cell's current value leaves the heap unchanged. -/
theorem heapSet_self {H : List (Nat × DVal)} {a : Nat} {w : DVal}
    (h : H.lookup a = some w) : heapSet H a w = H := by
  induction H with
  | nil => rfl
  | cons kv H ih =>
    obtain ⟨b, v⟩ := kv
    by_cases hb : b = a
    · subst hb
      have hbe : (b == b) = true := by simp
      simp only [List.lookup_cons, hbe] at h
      cases h
      simp [heapSet]
    · have hbe : (a == b) = false := by
        simp only [beq_eq_false_iff_ne, ne_eq]
        exact fun he => hb he.symm
      simp only [List.lookup_cons, hbe] at h
      simp only [heapSet, if_neg hb]
      rw [ih h]

/-- Two successive `heapSet` on the same cell collapse to the last. -/
theorem heapSet_heapSet (H : List (Nat × DVal)) (a : Nat) (x y : DVal) :
    heapSet (heapSet H a x) a y = heapSet H a y := by
  induction H with
  | nil => rfl
  | cons kv H ih =>
    obtain ⟨b, v⟩ := kv
    by_cases hb : b = a
    · simp [heapSet, hb]
    · simp only [heapSet, if_neg hb]
      rw [ih]

/-- Core slot-write facts, lifted to the heap: a readable slot is
writable, reads back what was written, writing the current value is the
identity, and a second write absorbs the first. -/
theorem writeLoc_spec {H : List (Nat × DVal)} {loc : Loc} {u : DVal} (x : DVal)
    (h : readLoc H loc = some u) :
    ∃ H', writeLoc H loc x = some H' ∧ readLoc H' loc = some x ∧
      writeLoc H loc u = some H ∧ ∀ y, writeLoc H' loc y = writeLoc H loc y := by
  unfold readLoc at h
  cases hget : heapGet H loc.base with
  | none => rw [hget] at h; cases h
  | some v0 =>
    rw [hget] at h
    simp only [Option.some_bind] at h
    obtain ⟨v', hw1, hw2, hw3, hw4⟩ := writePath_spec loc.path v0 u x h
    refine ⟨heapSet H loc.base v', ?_, ?_, ?_, ?_⟩
    · simp only [writeLoc, hget, hw1, Option.bind_eq_bind, Option.some_bind]
    · simp only [readLoc, heapGet] at hget ⊢
      rw [lookup_heapSet_self v' hget]
      simpa using hw2
    · simp only [writeLoc, hget, hw3, Option.bind_eq_bind, Option.some_bind]
      unfold heapGet at hget
      rw [heapSet_self hget]
    · intro y
      simp only [writeLoc]
      unfold heapGet at hget ⊢
      rw [lookup_heapSet_self v' hget, hget]
      simp only [Option.bind_eq_bind, Option.some_bind]
      rw [hw4 y]
      cases writePath v0 loc.path y with
      | none => rfl
      | some z =>
        simp only [Option.some_bind]
        rw [heapSet_heapSet]

/-- Reading one step further down a path. -/
theorem readPath_concat_index : ∀ (p : List PE) (v : DVal) (es : List DVal) (j : Nat),
    readPath v p = some (.dslice es) →
    readPath v (p ++ [.pindex j]) = es[j]? := by
  intro p
  induction p with
  | nil =>
    intro v es j h
    simp only [readPath] at h
    cases h
    rw [List.nil_append]
    simp only [readPath]
    cases hjj : es[j]? with
    | none => rfl
    | some w => simp [readPath]
  | cons pe p ih =>
    intro v es j h
    cases pe with
    | pfield nm =>
      cases v with
      | dstruct fs =>
        simp only [readPath] at h
        cases hlk : fs.lookup nm with
        | none => rw [hlk] at h; cases h
        | some w =>
          rw [hlk] at h
          rw [List.cons_append]
          simp only [readPath, hlk]
          exact ih w es j h
      | dint n => exact Option.noConfusion h
      | dstr s => exact Option.noConfusion h
      | dslice es2 => exact Option.noConfusion h
      | dptr a => exact Option.noConfusion h
      | dother => exact Option.noConfusion h
    | pindex j2 =>
      cases v with
      | dslice es2 =>
        simp only [readPath] at h
        cases hlk : es2[j2]? with
        | none => rw [hlk] at h; cases h
        | some w =>
          rw [hlk] at h
          rw [List.cons_append]
          simp only [readPath, hlk]
          exact ih w es j h
      | dint n => exact Option.noConfusion h
      | dstr s => exact Option.noConfusion h
      | dstruct fs => exact Option.noConfusion h
      | dptr a => exact Option.noConfusion h
      | dother => exact Option.noConfusion h

/-- Writing through a final index step equals updating the parent slice
in place. -/
theorem writePath_concat_index : ∀ (p : List PE) (v : DVal) (es : List DVal)
    (j : Nat) (x : DVal), readPath v p = some (.dslice es) → j < es.length →
    writePath v (p ++ [.pindex j]) x = writePath v p (.dslice (es.set j x)) := by
  intro p
  induction p with
  | nil =>
    intro v es j x h hj
    simp only [readPath] at h
    cases h
    simp only [List.nil_append, writePath]
    rw [List.getElem?_eq_getElem hj]
    simp [writePath]
  | cons pe p ih =>
    intro v es j x h hj
    cases pe with
    | pfield nm =>
      cases v with
      | dstruct fs =>
        simp only [readPath] at h
        cases hlk : fs.lookup nm with
        | none => rw [hlk] at h; cases h
        | some w =>
          rw [hlk] at h
          rw [List.cons_append]
          simp only [writePath, hlk, Option.bind_eq_bind, Option.some_bind]
          rw [ih w es j x h hj]
      | dint n => exact Option.noConfusion h
      | dstr s => exact Option.noConfusion h
      | dslice es2 => exact Option.noConfusion h
      | dptr a => exact Option.noConfusion h
      | dother => exact Option.noConfusion h
    | pindex j2 =>
      cases v with
      | dslice es2 =>
        simp only [readPath] at h
        cases hlk : es2[j2]? with
        | none => rw [hlk] at h; cases h
        | some w =>
          rw [hlk] at h
          rw [List.cons_append]
          simp only [writePath, hlk, Option.bind_eq_bind, Option.some_bind]
          rw [ih w es j x h hj]
      | dint n => exact Option.noConfusion h
      | dstr s => exact Option.noConfusion h
      | dstruct fs => exact Option.noConfusion h
      | dptr a => exact Option.noConfusion h
      | dother => exact Option.noConfusion h

/-- Heap-level: reading the `j`-th element slot of a slice-valued slot. -/
theorem readLoc_concat_index {H : List (Nat × DVal)} {loc : Loc} {es : List DVal}
    (j : Nat) (h : readLoc H loc = some (.dslice es)) :
    readLoc H ⟨loc.base, loc.path ++ [.pindex j]⟩ = es[j]? := by
  unfold readLoc at h ⊢
  cases hget : heapGet H loc.base with
  | none => rw [hget] at h; cases h
  | some v0 =>
    rw [hget] at h
    simp only [Option.some_bind] at h ⊢
    exact readPath_concat_index loc.path v0 es j h

/-- Heap-level: writing the `j`-th element slot of a slice-valued slot
equals rewriting the whole slice slot with the element updated. -/
theorem writeLoc_concat_index {H : List (Nat × DVal)} {loc : Loc} {es : List DVal}
    (j : Nat) (x : DVal) (h : readLoc H loc = some (.dslice es)) (hj : j < es.length) :
    writeLoc H ⟨loc.base, loc.path ++ [.pindex j]⟩ x
      = writeLoc H loc (.dslice (es.set j x)) := by
  unfold readLoc at h
  cases hget : heapGet H loc.base with
  | none => rw [hget] at h; cases h
  | some v0 =>
    rw [hget] at h
    simp only [Option.some_bind] at h
    simp only [writeLoc, hget, Option.bind_eq_bind, Option.some_bind]
    rw [writePath_concat_index loc.path v0 es j x h hj]

/-- Reduction of a successful `Except` bind. -/
theorem ok_bind {α β : Type} (a : α) (g : α → Except MErr β) :
    (do let x ← (Except.ok a : Except MErr α); g x) = g a := rfl

/-- Element fuel bounds are at least 1. -/
theorem szL_pos (es : List SVal) : 1 ≤ szL es := by
  cases es with
  | nil => simp [szL]
  | cons e es =>
    simp only [szL]
    omega

/-- Building the nodes of a list of simple elements: the session only
grows the arena (identity map and serial counter untouched), and the
returned ids represent the elements pointwise in the final arena. The
element behaviour is a hypothesis so that this lemma serves both the
structural induction and the top-level round trip. -/
theorem mlistFromSlice_simple : ∀ (es : List SVal),
    (∀ e ∈ es, ∀ (f : Nat) (h : SHeap) (st : MakerSt), szV e ≤ f →
      ∃ ext i, mnode f h st e = .ok ({ st with arena := st.arena ++ ext }, i) ∧
        Represents (st.arena ++ ext) i e) →
    ∀ (f : Nat) (h : SHeap) (st : MakerSt), szL es ≤ f →
    ∃ ext ids, mlistFromSlice f h st es = .ok ({ st with arena := st.arena ++ ext }, ids) ∧
      ids.length = es.length ∧
      (∀ j, j < es.length →
        Represents (st.arena ++ ext) (ids.getD j 0) (es.getD j .sother)) := by
  intro es
  induction es with
  | nil =>
    intro _ f h st hf
    match f, hf with
    | f+1, _ =>
      refine ⟨[], [], ?_, rfl, fun j hj => absurd hj (Nat.not_lt_zero j)⟩
      rw [List.append_nil]
      rfl
  | cons e es ih =>
    intro helem f h st hf
    have hz : 1 ≤ szL es := szL_pos es
    have hf1 : 1 ≤ f := by simp [szL] at hf; omega
    obtain ⟨g, rfl⟩ : ∃ g, f = g + 1 := ⟨f - 1, by omega⟩
    have h1 : szV e ≤ g := by simp [szL] at hf; omega
    have h2 : szL es ≤ g := by simp [szL] at hf; omega
    obtain ⟨ext1, i1, hrun1, hrep1⟩ := helem e (List.mem_cons_self e es) g h st h1
    obtain ⟨ext2, ids, hrun2, hlen2, hreps2⟩ :=
      ih (fun e' he' => helem e' (List.mem_cons_of_mem e he')) g h
        { st with arena := st.arena ++ ext1 } h2
    refine ⟨ext1 ++ ext2, i1 :: ids, ?_, by simp [hlen2], ?_⟩
    · simp only [mlistFromSlice, hrun1, ok_bind, hrun2]
      rw [← List.append_assoc]
    · intro j hj
      cases j with
      | zero =>
        rw [← List.append_assoc]
        exact Represents_append ext2 hrep1
      | succ j =>
        have hj' : j < es.length := by simpa using hj
        rw [← List.append_assoc]
        exact hreps2 j hj'

/-- Building one simple value: the maker allocates the subtree into the
arena (identity map and serial counter untouched) and the returned index
represents the value. -/
theorem mnode_simple : ∀ (v : SVal) (t : Ty), HasSimpleTy v t →
    ∀ (f : Nat) (h : SHeap) (st : MakerSt), szV v ≤ f →
    ∃ ext i, mnode f h st v = .ok ({ st with arena := st.arena ++ ext }, i) ∧
      Represents (st.arena ++ ext) i v := by
  intro v t hst
  induction hst with
  | int n =>
    intro f h st hf
    match f, hf with
    | f+1, _ =>
      refine ⟨[⟨"", .vint n, none⟩], st.arena.length, rfl, ?_⟩
      exact .int _ _ _ (List.getElem?_concat_length _ _)
  | str s =>
    intro f h st hf
    match f, hf with
    | f+1, _ =>
      refine ⟨[⟨"", .vstr s, none⟩], st.arena.length, rfl, ?_⟩
      exact .str _ _ _ (List.getElem?_concat_length _ _)
  | slice es t hmem ih =>
    intro f h st hf
    have hz : 1 ≤ szL es := szL_pos es
    have hf3 : 3 ≤ f := by simp [szV] at hf; omega
    obtain ⟨g, rfl⟩ : ∃ g, f = g + 2 := ⟨f - 2, by omega⟩
    have hg : szL es ≤ g := by simp [szV] at hf; omega
    obtain ⟨ext, ids, hrun, hlen, hreps⟩ :=
      mlistFromSlice_simple es (fun e he => ih e he) g h st hg
    refine ⟨ext ++ [⟨"", .vnone, some ids⟩], (st.arena ++ ext).length, ?_, ?_⟩
    · simp only [mnode, mlist, hrun, ok_bind]
      rw [← List.append_assoc]
      rfl
    · refine .slice _ _ _ _ ?_ hlen ?_
      · rw [← List.append_assoc]
        exact List.getElem?_concat_length _ _
      · intro j hj
        rw [← List.append_assoc]
        exact Represents_append _ (hreps j hj)

/-- Reduction of a successful filler bind. -/
theorem ok_bindF {α β : Type} (a : α) (g : α → Except FErr β) :
    (do let x ← (Except.ok a : Except FErr α); g x) = g a := rfl

/-- Filling the elements of a slice destination from pointwise-represented
simple nodes: each iteration appends one zero element and fills it, so the
run extends the slice slot holding `A` to `A ++ toDList es` and changes
nothing else. The element behaviour is a hypothesis so the lemma serves
both the structural induction and the top-level round trip. -/
theorem fsliceFromList_simple (t : Ty) : ∀ (es : List SVal),
    (∀ e ∈ es, ∀ (a : List MNode) (i : Nat), Represents a i e →
      ∀ (f : Nat) (loc : Loc) (st : FSt), szV e ≤ f →
      readLoc st.heap loc = some (zeroVal t) →
      ∃ H', writeLoc st.heap loc (toD e) = some H' ∧
        ffromNode f a i t loc st = .ok { st with heap := H' }) →
    ∀ (a : List MNode) (ids : List Nat), ids.length = es.length →
    (∀ j, j < es.length → Represents a (ids.getD j 0) (es.getD j .sother)) →
    ∀ (f : Nat) (loc : Loc) (st : FSt) (A : List DVal), szL es ≤ f →
    readLoc st.heap loc = some (.dslice A) →
    ∃ H', writeLoc st.heap loc (.dslice (A ++ toDList es)) = some H' ∧
      fsliceFromList f a ids t loc st A.length = .ok { st with heap := H' } := by
  intro es
  induction es with
  | nil =>
    intro _ a ids hlen _ f loc st A hf hread
    have hids : ids = [] := List.length_eq_zero.mp hlen
    subst hids
    match f, hf with
    | f+1, _ =>
      obtain ⟨H0, _, _, hself, _⟩ := writeLoc_spec (.dslice A) hread
      refine ⟨st.heap, ?_, rfl⟩
      simp only [toDList, List.append_nil]
      exact hself
  | cons e es ih =>
    intro helem a ids hlen hreps f loc st A hf hread
    obtain ⟨id0, ids', rfl⟩ : ∃ id0 ids', ids = id0 :: ids' := by
      cases ids with
      | nil => simp at hlen
      | cons x xs => exact ⟨x, xs, rfl⟩
    have hf1 : 1 ≤ f := by simp [szL] at hf; omega
    obtain ⟨g, rfl⟩ : ∃ g, f = g + 1 := ⟨f - 1, by omega⟩
    have h1 : szV e ≤ g := by simp [szL] at hf; omega
    have h2 : szL es ≤ g := by simp [szL] at hf; omega
    have hrep0 : Represents a id0 e := by simpa using hreps 0 (by simp)
    have hlen' : ids'.length = es.length := by simpa using hlen
    have hreps' : ∀ j, j < es.length →
        Represents a (ids'.getD j 0) (es.getD j .sother) := by
      intro j hj
      simpa using hreps (j+1) (by simpa using Nat.succ_lt_succ hj)
    obtain ⟨H1, hwA, hrA, _, habsA⟩ := writeLoc_spec (.dslice (A ++ [zeroVal t])) hread
    have hchild : readLoc H1 ⟨loc.base, loc.path ++ [.pindex A.length]⟩
        = some (zeroVal t) := by
      rw [readLoc_concat_index A.length hrA]
      exact List.getElem?_concat_length _ _
    obtain ⟨H2, hwE, hrunE⟩ := helem e (List.mem_cons_self e es) a id0 hrep0 g
      ⟨loc.base, loc.path ++ [.pindex A.length]⟩ { st with heap := H1 } h1 hchild
    have hset : (A ++ [zeroVal t]).set A.length (toD e) = A ++ [toD e] :=
      set_concat_length A _ _
    have hwE' : writeLoc H1 loc (.dslice (A ++ [toD e])) = some H2 := by
      rw [← hset, ← writeLoc_concat_index A.length (toD e) hrA (by simp)]
      exact hwE
    have hwE2 : writeLoc st.heap loc (.dslice (A ++ [toD e])) = some H2 := by
      rw [← habsA _]
      exact hwE'
    obtain ⟨H2x, hH2x, hrH2, _, habs2⟩ := writeLoc_spec (.dslice (A ++ [toD e])) hread
    have hH2eq : H2x = H2 := by
      rw [hwE2] at hH2x
      exact (Option.some.inj hH2x).symm
    subst hH2eq
    obtain ⟨H3, hw3, hrun3⟩ := ih (fun e' he' => helem e' (List.mem_cons_of_mem e he'))
      a ids' hlen' hreps' g loc { st with heap := H2x } (A ++ [toD e]) h2 hrH2
    have hlenA : (A ++ [toD e]).length = A.length + 1 := by simp
    rw [hlenA] at hrun3
    refine ⟨H3, ?_, ?_⟩
    · have hfin : writeLoc st.heap loc (.dslice ((A ++ [toD e]) ++ toDList es))
          = some H3 := by
        rw [← habs2 _]
        exact hw3
      simpa [toDList, List.append_assoc] using hfin
    · simp only [fsliceFromList, hread, hwA, hrunE, ok_bindF]
      rw [hrun3]

/-- Filling one destination slot from the node representing a simple
value: the slot receives exactly the deep-equal reconstruction `toD v`,
and nothing else in the filler state changes. -/
theorem fill_node_simple : ∀ (v : SVal) (t : Ty), HasSimpleTy v t →
    ∀ (a : List MNode) (i : Nat), Represents a i v →
    ∀ (f : Nat) (loc : Loc) (st : FSt), szV v ≤ f →
    readLoc st.heap loc = some (zeroVal t) →
    ∃ H', writeLoc st.heap loc (toD v) = some H' ∧
      ffromNode f a i t loc st = .ok { st with heap := H' } := by
  intro v t hst
  induction hst with
  | int n =>
    intro a i hrep f loc st hf hread
    cases hrep
    rename_i hget
    match f, hf with
    | f+1, _ =>
      obtain ⟨H', hw, _, _, _⟩ := writeLoc_spec (toD (.sint n)) hread
      have hw' : writeLoc st.heap loc (.dint n) = some H' := hw
      refine ⟨H', hw, ?_⟩
      simp only [ffromNode, hget, setScalar, hw']
  | str s =>
    intro a i hrep f loc st hf hread
    cases hrep
    rename_i hget
    match f, hf with
    | f+1, _ =>
      obtain ⟨H', hw, _, _, _⟩ := writeLoc_spec (toD (.sstr s)) hread
      have hw' : writeLoc st.heap loc (.dstr s) = some H' := hw
      refine ⟨H', hw, ?_⟩
      simp only [ffromNode, hget, setScalar, hw']
  | slice es t hmem ih =>
    intro a i hrep f loc st hf hread
    cases hrep
    rename_i ids hget hlen hreps
    have hz := szL_pos es
    have hf3 : 3 ≤ f := by simp [szV] at hf; omega
    obtain ⟨g, rfl⟩ : ∃ g, f = g + 2 := ⟨f - 2, by omega⟩
    have hg : szL es ≤ g := by simp [szV] at hf; omega
    have hread' : readLoc st.heap loc = some (.dslice []) := hread
    obtain ⟨H', hw, hrun⟩ := fsliceFromList_simple t es (fun e he => ih e he)
      a ids hlen hreps g loc st [] hg hread'
    refine ⟨H', hw, ?_⟩
    simp only [ffromNode, hget, Option.getD_some, ffromList]
    exact hrun

/-- C2: for every value composed only of integers, strings and ordered
sequences (no references, no records), filling a fresh destination of the
same shape from `New(v)` reproduces a value deep-equal to `v`: cell 1 (the
destination the caller's pointer refers to) ends up holding exactly the
reconstruction `toD v`. -/
theorem c2_roundtrip_acyclic (v : SVal) (t : Ty) (hst : HasSimpleTy v t) (h : SHeap) :
    ∃ (f g : Nat) (st : MakerSt) (ids : List Nat) (fst : FSt),
      NewM f h (some v) = .ok (st, ids) ∧
      FillM g st.arena ids t = .ok fst ∧
      readLoc fst.heap ⟨1, []⟩ = some (toD v) := by
  cases hst with
  | int n =>
    exact ⟨2, 3, ⟨[⟨"", .vint n, none⟩], [], 1⟩, [0],
      ⟨[(0, .dptr (some 1)), (1, .dint n)], 2, []⟩, rfl, rfl, rfl⟩
  | str s =>
    exact ⟨2, 3, ⟨[⟨"", .vstr s, none⟩], [], 1⟩, [0],
      ⟨[(0, .dptr (some 1)), (1, .dstr s)], 2, []⟩, rfl, rfl, rfl⟩
  | slice es t hmem =>
    obtain ⟨ext, ids, hrun, hlen, hreps⟩ :=
      mlistFromSlice_simple es (fun e he => mnode_simple e t (hmem e he))
        (szL es) h mkMaker (Nat.le_refl _)
    have hread0 : readLoc ([(0, .dptr (some 1)), (1, zeroVal (.tslice t))] :
        List (Nat × DVal)) ⟨1, []⟩ = some (.dslice []) := rfl
    obtain ⟨H', hw, hrun2⟩ :=
      fsliceFromList_simple t es
        (fun e he => fill_node_simple e t (hmem e he))
        (mkMaker.arena ++ ext) ids hlen hreps (szL es) ⟨1, []⟩
        ⟨[(0, .dptr (some 1)), (1, zeroVal (.tslice t))], 2, []⟩ [] (Nat.le_refl _)
        hread0
    obtain ⟨H2, hw2, hr2, _, _⟩ := writeLoc_spec (.dslice ([] ++ toDList es)) hread0
    have hH : H2 = H' := by
      rw [hw] at hw2
      exact (Option.some.inj hw2).symm
    subst hH
    refine ⟨szL es + 1, szL es + 2, { mkMaker with arena := mkMaker.arena ++ ext }, ids,
      { heap := H2, next := 2, fm := [] }, ?_, ?_, ?_⟩
    · simp only [NewM, mlist]
      exact hrun
    · simp only [FillM, ffromList]
      have halloc : allocIndirectF (.tptr (.tslice t)) ⟨0, []⟩
          ⟨[(0, .dptr (some 1)), (1, zeroVal (.tslice t))], 2, []⟩
          = some (.tslice t, ⟨1, []⟩,
              ⟨[(0, .dptr (some 1)), (1, zeroVal (.tslice t))], 2, []⟩) := rfl
      rw [halloc]
      simp only [ffromList]
      exact hrun2
    · have : readLoc H2 ⟨1, []⟩ = some (.dslice ([] ++ toDList es)) := hr2
      simpa using this

/-- Witness for C2: the round trip at the concrete sequence `[1, 2]`. -/
theorem c2_witness :
    ∃ (f g : Nat) (st : MakerSt) (ids : List Nat) (fst : FSt),
      NewM f (fun _ => .sint 0) (some (.sslice [.sint 1, .sint 2])) = .ok (st, ids) ∧
      FillM g st.arena ids (.tslice .tint) = .ok fst ∧
      readLoc fst.heap ⟨1, []⟩ = some (toD (.sslice [.sint 1, .sint 2])) :=
  c2_roundtrip_acyclic (.sslice [.sint 1, .sint 2]) (.tslice .tint)
    (HasSimpleTy.slice _ _ (by
      intro e he
      simp only [List.mem_cons, List.not_mem_nil, or_false] at he
      rcases he with rfl | rfl
      · exact HasSimpleTy.int 1
      · exact HasSimpleTy.int 2))
    (fun _ => .sint 0)

/-! ## Claim C4: indent/unindent balance over a whole scan -/

/-- Tokens counted distribute over append. -/
theorem countTok_append (tt : TokType) (l₁ l₂ : List Token) :
    countTok tt (l₁ ++ l₂) = countTok tt l₁ + countTok tt l₂ := by
  simp [countTok, List.filter_append]

/-- Counting one more token. -/
theorem countTok_cons (tt : TokType) (tk : Token) (l : List Token) :
    countTok tt (tk :: l) = (if tk.type = tt then 1 else 0) + countTok tt l := by
  by_cases hc : tk.type = tt
  · simp [countTok, List.filter_cons, hc]
    omega
  · simp [countTok, List.filter_cons, hc]

/-- Counting inside a run of `Unindent` tokens. -/
theorem countTok_replicate (tt : TokType) (k : Nat) :
    countTok tt (List.replicate k ⟨.unindent, ""⟩)
      = if TokType.unindent = tt then k else 0 := by
  induction k with
  | zero => simp [countTok]
  | succ k ih =>
    rw [List.replicate_succ, countTok_cons, ih]
    by_cases htt : TokType.unindent = tt
    · simp only [if_pos htt, show (⟨.unindent, ""⟩ : Token).type = tt from htt, if_pos rfl]
      omega
    · have h2 : ¬ (⟨.unindent, ""⟩ : Token).type = tt := htt
      rw [if_neg h2, if_neg htt, if_neg htt]

/-- The default head prepended to the tail reassembles a non-empty list. -/
theorem headD_cons_tail {l : List Token} (h : l ≠ []) :
    l.headD ⟨.invalid, ""⟩ :: l.tail = l := by
  cases l with
  | nil => exact absurd rfl h
  | cons x xs => rfl

/-- `headD` is unchanged by appending on the right of a non-empty list. -/
theorem headD_append {l : List String} (x : String) (h : l ≠ []) :
    (l ++ [x]).headD "" = l.headD "" := by
  cases l with
  | nil => exact absurd rfl h
  | cons y ys => rfl

/-- `headD` is unchanged by a non-trivial `take`. -/
theorem headD_take (l : List String) (m : Nat) (hm : 1 ≤ m) :
    (l.take m).headD "" = l.headD "" := by
  cases l with
  | nil => simp
  | cons y ys =>
    match m, hm with
    | m+1, _ => simp [List.take]

/-- A non-empty list with head `""` and length 1 is `[""]`. -/
theorem eq_singleton_of_head (l : List String) (hne : l ≠ [])
    (hh : l.headD "" = "") (hl : l.length = 1) : l = [""] := by
  match l, hne with
  | [y], _ =>
    simp at hh
    rw [hh]

/-- Taking one element of a non-empty list is its head. -/
theorem take_one_eq_head (l : List String) (hne : l ≠ []) :
    l.take 1 = [l.headD ""] := by
  cases l with
  | nil => exact absurd rfl hne
  | cons y ys => rfl

/-- Behaviour of one `next()` call: the token queue and indent stack are
untouched; success leaves a nil error, failure records end-of-input or the
invalid-code-point error. -/
theorem nextF_spec {st : ScSt} {b : Bool} {st1 : ScSt} (h : nextF st = (b, st1)) :
    st1.toks = st.toks ∧ st1.indents = st.indents ∧
    (b = true → st1.err = .noErr) ∧
    (b = false → st1.err = .eofErr ∨ st1.err = .invalidCodePoint) := by
  obtain ⟨inp, ch, ind, tk, er⟩ := st
  cases inp with
  | nil =>
    simp only [nextF] at h
    cases h
    exact ⟨rfl, rfl, fun hb => Bool.noConfusion hb, fun _ => Or.inl rfl⟩
  | cons c rest =>
    simp only [nextF] at h
    split_ifs at h <;> cases h
    · exact ⟨rfl, rfl, fun _ => rfl, fun hb => Bool.noConfusion hb⟩
    · exact ⟨rfl, rfl, fun hb => Bool.noConfusion hb, fun _ => Or.inr rfl⟩
    · exact ⟨rfl, rfl, fun hb => Bool.noConfusion hb, fun _ => Or.inr rfl⟩
    · exact ⟨rfl, rfl, fun _ => rfl, fun hb => Bool.noConfusion hb⟩

/-- `indentSpaces` preserves the token queue and indent stack. -/
theorem indentSpacesF_frame : ∀ (f : Nat) (st : ScSt) (rs : List Char) (ind : String)
    (ok : Bool) (st' : ScSt), indentSpacesF f st rs = some (ind, ok, st') →
    st'.toks = st.toks ∧ st'.indents = st.indents := by
  intro f
  induction f with
  | zero => intro st rs ind ok st' h; cases h
  | succ f ih =>
    intro st rs ind ok st' h
    simp only [indentSpacesF] at h
    cases hn : nextF st with
    | mk b st1 =>
      obtain ⟨ht1, hi1, _, _⟩ := nextF_spec hn
      cases b with
      | false =>
        simp only [hn] at h
        cases h
        exact ⟨ht1, hi1⟩
      | true =>
        simp only [hn] at h
        split_ifs at h with hc
        · obtain ⟨ht2, hi2⟩ := ih st1 (rs ++ [st1.ch]) ind ok st' h
          exact ⟨ht2.trans ht1, hi2.trans hi1⟩
        · cases h
          exact ⟨ht1, hi1⟩

/-- `newlineSpaces` preserves the token queue and indent stack. -/
theorem newlineSpacesF_frame : ∀ (f : Nat) (st : ScSt) (hn0 : Bool) (hn : Bool)
    (ok : Bool) (st' : ScSt), newlineSpacesF f st hn0 = some (hn, ok, st') →
    st'.toks = st.toks ∧ st'.indents = st.indents := by
  intro f
  induction f with
  | zero => intro st hn0 hn ok st' h; cases h
  | succ f ih =>
    intro st hn0 hn ok st' h
    simp only [newlineSpacesF] at h
    cases hnx : nextF st with
    | mk b st1 =>
      obtain ⟨ht1, hi1, _, _⟩ := nextF_spec hnx
      cases b with
      | false =>
        simp only [hnx] at h
        cases h
        exact ⟨ht1, hi1⟩
      | true =>
        simp only [hnx] at h
        split_ifs at h with hc
        · obtain ⟨ht2, hi2⟩ := ih st1 true hn ok st' h
          exact ⟨ht2.trans ht1, hi2.trans hi1⟩
        · cases h
          exact ⟨ht1, hi1⟩

/-- `scanIndent` preserves the token queue and indent stack. -/
theorem scanIndentF_frame : ∀ (f : Nat) (st : ScSt) (ind : String) (ok : Bool)
    (st' : ScSt), scanIndentF f st = some (ind, ok, st') →
    st'.toks = st.toks ∧ st'.indents = st.indents := by
  intro f
  induction f with
  | zero => intro st ind ok st' h; cases h
  | succ f ih =>
    intro st ind ok st' h
    simp only [scanIndentF] at h
    cases his : indentSpacesF f st [] with
    | none =>
      simp only [his] at h
      exact Option.noConfusion h
    | some r =>
      obtain ⟨ind1, ok1, st1⟩ := r
      obtain ⟨ht1, hi1⟩ := indentSpacesF_frame f st [] ind1 ok1 st1 his
      cases ok1 with
      | false =>
        simp only [his] at h
        cases h
        exact ⟨ht1, hi1⟩
      | true =>
        simp only [his] at h
        cases hns : newlineSpacesF f st1 false with
        | none =>
          simp only [hns] at h
          exact Option.noConfusion h
        | some r2 =>
          obtain ⟨hn2, ok2, st2⟩ := r2
          obtain ⟨ht2, hi2⟩ := newlineSpacesF_frame f st1 false hn2 ok2 st2 hns
          cases ok2 with
          | false =>
            simp only [hns] at h
            cases h
            exact ⟨ht2.trans ht1, hi2.trans hi1⟩
          | true =>
            cases hn2 with
            | false =>
              simp only [hns] at h
              cases h
              exact ⟨ht2.trans ht1, hi2.trans hi1⟩
            | true =>
              simp only [hns] at h
              obtain ⟨ht3, hi3⟩ := ih st2 ind ok st' h
              exact ⟨ht3.trans (ht2.trans ht1), hi3.trans (hi2.trans hi1)⟩

/-- `inline` preserves the token queue and indent stack. -/
theorem inlineF_frame : ∀ (f : Nat) (st : ScSt) (rs : List Char) (s : String)
    (st' : ScSt), inlineF f st rs = some (s, st') →
    st'.toks = st.toks ∧ st'.indents = st.indents := by
  intro f
  induction f with
  | zero => intro st rs s st' h; cases h
  | succ f ih =>
    intro st rs s st' h
    simp only [inlineF] at h
    cases hn : nextF st with
    | mk b st1 =>
      obtain ⟨ht1, hi1, _, _⟩ := nextF_spec hn
      cases b with
      | false =>
        simp only [hn] at h
        cases h
        exact ⟨ht1, hi1⟩
      | true =>
        simp only [hn] at h
        split_ifs at h with hc
        · cases h
          exact ⟨ht1, hi1⟩
        · obtain ⟨ht2, hi2⟩ := ih st1 (rs ++ [st1.ch]) s st' h
          exact ⟨ht2.trans ht1, hi2.trans hi1⟩

/-- `afterIndent` appends exactly one content token (an `Annotation` or a
`LineString`) and leaves the indent stack unchanged. -/
theorem afterIndentF_delta (f : Nat) (st st' : ScSt) (h : afterIndentF f st = some st') :
    ∃ tk : Token, st'.toks = st.toks ++ [tk] ∧
      (tk.type = .annot ∨ tk.type = .lineString) ∧ st'.indents = st.indents := by
  unfold afterIndentF at h
  split_ifs at h
  · cases hin : inlineF f st [] with
    | none =>
      simp only [hin] at h
      exact Option.noConfusion h
    | some r =>
      obtain ⟨s2, st2⟩ := r
      simp only [hin] at h
      cases h
      obtain ⟨ht2, hi2⟩ := inlineF_frame f st [] s2 st2 hin
      exact ⟨⟨.annot, s2.drop 1⟩, by rw [ht2], Or.inl rfl, hi2⟩
  · cases hin : inlineF f st [] with
    | none =>
      simp only [hin] at h
      exact Option.noConfusion h
    | some r =>
      obtain ⟨s2, st2⟩ := r
      simp only [hin] at h
      cases h
      obtain ⟨ht2, hi2⟩ := inlineF_frame f st [] s2 st2 hin
      exact ⟨⟨.lineString, s2⟩, by rw [ht2], Or.inr rfl, hi2⟩

/-- A failing `indentSpaces` leaves a non-nil recorded error. -/
theorem indentSpacesF_err : ∀ (f : Nat) (st : ScSt) (rs : List Char) (ind : String)
    (st' : ScSt), indentSpacesF f st rs = some (ind, false, st') → st'.err ≠ .noErr := by
  intro f
  induction f with
  | zero => intro st rs ind st' h; cases h
  | succ f ih =>
    intro st rs ind st' h
    simp only [indentSpacesF] at h
    cases hn : nextF st with
    | mk b st1 =>
      cases b with
      | false =>
        simp only [hn] at h
        cases h
        intro he
        have h4 := (nextF_spec hn).2.2.2 rfl
        rw [he] at h4
        rcases h4 with h4 | h4 <;> exact SErr.noConfusion h4
      | true =>
        simp only [hn] at h
        split_ifs at h with hc
        · exact ih st1 (rs ++ [st1.ch]) ind st' h
        · simp at h

/-- A failing `newlineSpaces` leaves a non-nil recorded error. -/
theorem newlineSpacesF_err : ∀ (f : Nat) (st : ScSt) (hn0 hn2 : Bool)
    (st' : ScSt), newlineSpacesF f st hn0 = some (hn2, false, st') → st'.err ≠ .noErr := by
  intro f
  induction f with
  | zero => intro st hn0 hn2 st' h; cases h
  | succ f ih =>
    intro st hn0 hn2 st' h
    simp only [newlineSpacesF] at h
    cases hn : nextF st with
    | mk b st1 =>
      cases b with
      | false =>
        simp only [hn] at h
        cases h
        intro he
        have h4 := (nextF_spec hn).2.2.2 rfl
        rw [he] at h4
        rcases h4 with h4 | h4 <;> exact SErr.noConfusion h4
      | true =>
        simp only [hn] at h
        split_ifs at h with hc
        · exact ih st1 true hn2 st' h
        · simp at h

/-- A failing `scanIndent` leaves a non-nil recorded error. -/
theorem scanIndentF_err : ∀ (f : Nat) (st : ScSt) (ind : String) (st' : ScSt),
    scanIndentF f st = some (ind, false, st') → st'.err ≠ .noErr := by
  intro f
  induction f with
  | zero => intro st ind st' h; cases h
  | succ f ih =>
    intro st ind st' h
    simp only [scanIndentF] at h
    cases his : indentSpacesF f st [] with
    | none => simp only [his] at h; exact Option.noConfusion h
    | some r =>
      obtain ⟨ind1, ok1, st1⟩ := r
      cases ok1 with
      | false =>
        simp only [his] at h
        cases h
        exact indentSpacesF_err f st [] _ _ his
      | true =>
        simp only [his] at h
        cases hns : newlineSpacesF f st1 false with
        | none => simp only [hns] at h; exact Option.noConfusion h
        | some r2 =>
          obtain ⟨hn2, ok2, st2⟩ := r2
          cases ok2 with
          | false =>
            simp only [hns] at h
            cases h
            exact newlineSpacesF_err f st1 false _ _ hns
          | true =>
            cases hn2 with
            | false =>
              simp only [hns] at h
              simp at h
            | true =>
              simp only [hns] at h
              exact ih st2 ind st' h

/-- A singleton list of a token of a different type counts zero. -/
theorem countTok_single (tt : TokType) (tk : Token) (h : ¬ tk.type = tt) :
    countTok tt [tk] = 0 := by
  rw [countTok_cons, if_neg h]
  rfl

/-- Effect of one `scanLine` pass on the observable scanner state: it only
appends tokens, never an `EOF` token, and the appended `Indent`/`Unindent`
tokens account exactly for the change in indent-stack depth; the stack
stays non-empty with its bottom entry unchanged. -/
theorem scanLineF_delta (f : Nat) (st st' : ScSt) (h : scanLineF f st = some st')
    (hne : st.indents ≠ []) :
    ∃ Δ, st'.toks = st.toks ++ Δ ∧
      countTok .eof Δ = 0 ∧
      countTok .indent Δ + st.indents.length
        = countTok .unindent Δ + st'.indents.length ∧
      st'.indents ≠ [] ∧ st'.indents.headD "" = st.indents.headD "" ∧
      (Δ = [] → st'.err ≠ .noErr) := by
  simp only [scanLineF] at h
  cases hscan : scanIndentF f st with
  | none =>
    simp only [hscan] at h
    exact Option.noConfusion h
  | some r =>
    obtain ⟨ind, okb, st₁⟩ := r
    obtain ⟨ht1, hi1⟩ := scanIndentF_frame f st ind okb st₁ hscan
    cases okb with
    | false =>
      simp only [hscan] at h
      cases h
      refine ⟨[], ?_, rfl, ?_, ?_, ?_, ?_⟩
      · rw [List.append_nil]; exact ht1
      · simp [countTok, hi1]
      · rw [hi1]; exact hne
      · rw [hi1]
      · exact fun _ => scanIndentF_err f st ind _ hscan
    | true =>
      simp only [hscan] at h
      have hne1 : st₁.indents ≠ [] := by rw [hi1]; exact hne
      split at h
      · rename_i fst heq
        cases h
        refine ⟨[], ?_, rfl, ?_, ?_, ?_, ?_⟩
        · rw [List.append_nil]; exact ht1
        · simp [countTok, hi1]
        · rw [hi1]; exact hne
        · rw [hi1]
        · exact fun _ he => SErr.noConfusion he
      · rename_i n heq
        have hn : n = 0 ∨ n = 1 ∨
            ∃ k, 1 ≤ k ∧ k < st₁.indents.length ∧ n = -(k : Int) := by
          simp only [calcIndentGo] at heq
          split_ifs at heq with he1 he2
          · injection heq with h1 h2
            exact Or.inl h1.symm
          · injection heq with h1 h2
            exact Or.inr (Or.inl h1.symm)
          · cases hfb : findBack st₁.indents ind with
            | some k =>
              rw [hfb] at heq
              have heq2 : ((-(k : Int), true) : Int × Bool) = (n, true) := heq
              injection heq2 with h1 h2
              have hfb' : findBackAux st₁.indents ind st₁.indents.length 1
                  = some k := hfb
              obtain ⟨hk1, hk2, _, _⟩ :=
                (findBackAux_spec st₁.indents ind st₁.indents.length 1
                  (by omega)).1 k hfb'
              exact Or.inr (Or.inr ⟨k, hk1, hk2, h1.symm⟩)
            | none =>
              rw [hfb] at heq
              have heq2 : (((0 : Int), false) : Int × Bool) = (n, true) := heq
              injection heq2 with h1 h2
              exact Bool.noConfusion h2
        rcases hn with rfl | rfl | ⟨k, hk1, hk2, rfl⟩
        · rw [if_pos rfl] at h
          obtain ⟨tk, htk, htkty, hind⟩ := afterIndentF_delta f st₁ st' h
          have htyE : ¬ tk.type = .eof := by
            rcases htkty with hty | hty <;> rw [hty] <;> decide
          have htyI : ¬ tk.type = .indent := by
            rcases htkty with hty | hty <;> rw [hty] <;> decide
          have htyU : ¬ tk.type = .unindent := by
            rcases htkty with hty | hty <;> rw [hty] <;> decide
          refine ⟨[tk], ?_, countTok_single _ _ htyE, ?_, ?_, ?_, ?_⟩
          · rw [htk, ht1]
          · rw [countTok_single _ _ htyI, countTok_single _ _ htyU, hind, hi1]
          · rw [hind, hi1]; exact hne
          · rw [hind, hi1]
          · exact fun hD => List.noConfusion hD
        · rw [if_neg (by norm_num), if_pos rfl] at h
          obtain ⟨tk, htk, htkty, hind⟩ := afterIndentF_delta f _ st' h
          have hind' : st'.indents = st₁.indents ++ [ind] := hind
          have htyE : ¬ tk.type = .eof := by
            rcases htkty with hty | hty <;> rw [hty] <;> decide
          have htyI : ¬ tk.type = .indent := by
            rcases htkty with hty | hty <;> rw [hty] <;> decide
          have htyU : ¬ tk.type = .unindent := by
            rcases htkty with hty | hty <;> rw [hty] <;> decide
          have hcI : countTok .indent [⟨.indent, ""⟩, tk] = 1 := by
            rw [countTok_cons, countTok_single _ _ htyI, if_pos rfl]
          have hcU : countTok .unindent [⟨.indent, ""⟩, tk] = 0 := by
            rw [countTok_cons, countTok_single _ _ htyU, if_neg (by decide)]
          have hcE : countTok .eof [⟨.indent, ""⟩, tk] = 0 := by
            rw [countTok_cons, countTok_single _ _ htyE, if_neg (by decide)]
          refine ⟨[⟨.indent, ""⟩, tk], ?_, hcE, ?_, ?_, ?_, ?_⟩
          · rw [htk]
            show st₁.toks ++ [⟨.indent, ""⟩] ++ [tk] = st.toks ++ [⟨.indent, ""⟩, tk]
            rw [ht1, List.append_assoc]
            rfl
          · rw [hcI, hcU, hind', List.length_append, hi1, List.length_singleton]
            omega
          · rw [hind']
            simp
          · rw [hind', headD_append ind hne1, hi1]
          · exact fun hD => List.noConfusion hD
        · rw [if_neg (by omega), if_neg (by omega)] at h
          cases h
          have hK : (-(-(k : Int))).toNat = k := by omega
          refine ⟨List.replicate k ⟨.unindent, ""⟩, ?_, ?_, ?_, ?_, ?_, ?_⟩
          · show st₁.toks ++ List.replicate ((-(-(k : Int))).toNat) ⟨.unindent, ""⟩
              = st.toks ++ List.replicate k ⟨.unindent, ""⟩
            rw [hK, ht1]
          · rw [countTok_replicate, if_neg (by decide)]
          · show countTok .indent (List.replicate k ⟨.unindent, ""⟩) + st.indents.length
              = countTok .unindent (List.replicate k ⟨.unindent, ""⟩)
                + (st₁.indents.take
                    (st₁.indents.length - (-(-(k : Int))).toNat)).length
            rw [hK, countTok_replicate, countTok_replicate, List.length_take, hi1]
            rw [if_neg (by decide : ¬ TokType.unindent = TokType.indent)]
            rw [if_pos rfl]
            have hlen1 : st₁.indents.length = st.indents.length := by rw [hi1]
            omega
          · show st₁.indents.take (st₁.indents.length - (-(-(k : Int))).toNat) ≠ []
            rw [hK]
            have hlen : (st₁.indents.take (st₁.indents.length - k)).length
                = st₁.indents.length - k := by
              rw [List.length_take]
              omega
            intro hemp
            rw [hemp] at hlen
            simp at hlen
            omega
          · show (st₁.indents.take
                (st₁.indents.length - (-(-(k : Int))).toNat)).headD ""
              = st.indents.headD ""
            rw [hK, headD_take _ _ (by omega), hi1]
          · intro hD
            have hk0 := congrArg List.length hD
            rw [List.length_replicate] at hk0
            simp at hk0
            omega

/-- The tokens observably emitted so far by a `Scan` driver: those already
collected plus those still queued behind the current token. -/
def emittedE (st : ScSt) (acc : List Token) : List Token := acc ++ st.toks.tail

/-- Invariant maintained across `Scan` calls: the indent stack is a
non-empty stack rooted at `""`, the emitted `Indent`/`Unindent` tokens
account exactly for the depth above the root, and once `io.EOF` is
recorded the stack has been closed back down to `[""]`. -/
def ScanInv (st : ScSt) (acc : List Token) : Prop :=
  st.indents ≠ [] ∧ st.indents.headD "" = "" ∧
  countTok .indent (emittedE st acc) + 1
    = countTok .unindent (emittedE st acc) + st.indents.length ∧
  (st.err = .eofErr → st.indents = [""])

/-- A scanner state passing `Err() == nil` holds either `io.EOF` or no
error at all. -/
theorem errF_eq_none (st : ScSt) (h : errF st = none) :
    st.err = .eofErr ∨ st.err = .noErr := by
  by_contra hc
  unfold errF at h
  rw [if_neg hc] at h
  exact Option.noConfusion h

/-- Collecting the current token moves it from the queue into the
accumulator without changing the emitted-token list. -/
theorem emittedE_collect (st : ScSt) (acc : List Token) (hne : st.toks ≠ []) :
    emittedE st (acc ++ [tokenF st]) = acc ++ st.toks := by
  unfold emittedE tokenF
  rw [List.append_assoc]
  congr 1
  exact headD_cons_tail hne

/-- Effect of `handleEOF` on the observable scanner state: at `io.EOF` it
appends one `Unindent` per open level plus the `EOF` token and truncates
the stack to its root; otherwise it is the identity. -/
theorem handleEOFF_delta (st : ScSt) (hne : st.indents ≠ []) (hh : st.indents.headD "" = "") :
    ∃ Δ, (handleEOFF st).toks = st.toks ++ Δ ∧
      countTok .indent Δ + st.indents.length
        = countTok .unindent Δ + (handleEOFF st).indents.length ∧
      (handleEOFF st).indents ≠ [] ∧
      (handleEOFF st).indents.headD "" = "" ∧
      (handleEOFF st).err = st.err ∧
      (st.err = .eofErr → (handleEOFF st).indents = [""]) ∧
      (Δ = [] → st.err ≠ .eofErr) := by
  by_cases he : st.err = .eofErr
  · by_cases hl : st.indents.length > 1
    · have hH : handleEOFF st = { st with
          toks := st.toks ++ List.replicate (st.indents.length - 1) ⟨.unindent, ""⟩
                    ++ [⟨.eof, ""⟩],
          indents := st.indents.take 1 } := by
        unfold handleEOFF
        rw [if_pos he, if_pos hl]
      refine ⟨List.replicate (st.indents.length - 1) ⟨.unindent, ""⟩ ++ [⟨.eof, ""⟩],
        ?_, ?_, ?_, ?_, ?_, ?_, ?_⟩
      · rw [hH]
        show st.toks ++ List.replicate (st.indents.length - 1) ⟨.unindent, ""⟩ ++ [⟨.eof, ""⟩]
            = st.toks ++ (List.replicate (st.indents.length - 1) ⟨.unindent, ""⟩ ++ [⟨.eof, ""⟩])
        rw [List.append_assoc]
      · rw [hH]
        show countTok .indent
              (List.replicate (st.indents.length - 1) ⟨.unindent, ""⟩ ++ [⟨.eof, ""⟩])
              + st.indents.length
            = countTok .unindent
              (List.replicate (st.indents.length - 1) ⟨.unindent, ""⟩ ++ [⟨.eof, ""⟩])
              + (st.indents.take 1).length
        rw [countTok_append, countTok_append, countTok_replicate, countTok_replicate,
          countTok_single _ _ (by decide : ¬ (⟨.eof, ""⟩ : Token).type = .indent),
          countTok_single _ _ (by decide : ¬ (⟨.eof, ""⟩ : Token).type = .unindent),
          if_neg (by decide : ¬ TokType.unindent = TokType.indent), if_pos rfl,
          List.length_take]
        omega
      · rw [hH]
        show st.indents.take 1 ≠ []
        rw [take_one_eq_head st.indents hne]
        exact fun hc => List.noConfusion hc
      · rw [hH]
        show (st.indents.take 1).headD "" = ""
        rw [take_one_eq_head st.indents hne]
        exact hh
      · rw [hH]
      · intro _
        rw [hH]
        show st.indents.take 1 = [""]
        rw [take_one_eq_head st.indents hne, hh]
      · intro hD
        exact absurd hD (by simp)
    · have hlen1 : st.indents.length = 1 := by
        have hp : 0 < st.indents.length := List.length_pos.mpr hne
        omega
      have hH : handleEOFF st = { st with toks := st.toks ++ [⟨.eof, ""⟩] } := by
        unfold handleEOFF
        rw [if_pos he, if_neg hl]
      refine ⟨[⟨.eof, ""⟩], ?_, ?_, ?_, ?_, ?_, ?_, ?_⟩
      · rw [hH]
      · rw [hH]
        show countTok .indent [⟨.eof, ""⟩] + st.indents.length
            = countTok .unindent [⟨.eof, ""⟩] + st.indents.length
        rw [countTok_single _ _ (by decide : ¬ (⟨.eof, ""⟩ : Token).type = .indent),
          countTok_single _ _ (by decide : ¬ (⟨.eof, ""⟩ : Token).type = .unindent)]
      · rw [hH]; exact hne
      · rw [hH]; exact hh
      · rw [hH]
      · intro _
        rw [hH]
        show st.indents = [""]
        exact eq_singleton_of_head st.indents hne hh hlen1
      · intro hD
        exact absurd hD (by simp)
  · have hH : handleEOFF st = st := by
      unfold handleEOFF
      rw [if_neg he]
    refine ⟨[], ?_, ?_, ?_, ?_, ?_, ?_, ?_⟩
    · rw [hH, List.append_nil]
    · rw [hH]
      rfl
    · rw [hH]; exact hne
    · rw [hH]; exact hh
    · rw [hH]
    · intro hef
      exact absurd hef he
    · intro _
      exact he

/-- One `Scan` call preserves the scanner invariant when it succeeds, and
when it reports no more tokens under a nil `Err()`, the tokens collected
so far are indent/unindent balanced and the stack is back to `[""]`. -/
theorem scanStep_inv (f : Nat) (st st' : ScSt) (b : Bool) (acc : List Token)
    (h : scanStep f st = some (b, st')) (hinv : ScanInv st acc) :
    (b = true → ScanInv st' (acc ++ [tokenF st'])) ∧
    (b = false → errF st' = none →
      countTok .indent acc = countTok .unindent acc ∧ st'.indents = [""]) := by
  obtain ⟨hne, hh, hbal, heof⟩ := hinv
  simp only [scanStep] at h
  split_ifs at h with h1 h2
  · cases h
    refine ⟨fun _ => ?_, fun hb => Bool.noConfusion hb⟩
    refine ⟨hne, hh, ?_, heof⟩
    rw [emittedE_collect { st with toks := st.toks.tail } acc h1]
    exact hbal
  · cases h
    refine ⟨fun hb => Bool.noConfusion hb, fun _ he => ?_⟩
    have h1' : st.toks.tail = [] := not_not.mp h1
    rcases errF_eq_none _ he with hef | hno
    · have hi := heof hef
      have hbal0 : countTok .indent acc + 1
          = countTok .unindent acc + st.indents.length := by
        have hb2 := hbal
        unfold emittedE at hb2
        rw [h1', List.append_nil] at hb2
        exact hb2
      have hlen : st.indents.length = 1 := by rw [hi]; rfl
      exact ⟨by omega, hi⟩
    · exact absurd hno h2
  · have h1' : st.toks.tail = [] := not_not.mp h1
    have h2' : st.err = .noErr := not_not.mp h2
    cases hsl : scanLineF f { st with toks := st.toks.tail } with
    | none =>
      simp only [hsl] at h
      exact Option.noConfusion h
    | some st₂ =>
      simp only [hsl] at h
      cases h
      obtain ⟨Δ₁, hT1, hE1, hB1, hN1, hH1, hZ1⟩ :=
        scanLineF_delta f { st with toks := st.toks.tail } st₂ hsl hne
      have hT1' : st₂.toks = st.toks.tail ++ Δ₁ := hT1
      rw [h1', List.nil_append] at hT1'
      have hB1' : countTok .indent Δ₁ + st.indents.length
          = countTok .unindent Δ₁ + st₂.indents.length := hB1
      have hH1' : st₂.indents.headD "" = "" := by
        have hx : st₂.indents.headD "" = st.indents.headD "" := hH1
        rw [hx]
        exact hh
      obtain ⟨Δ₂, hT2, hB2, hN2, hH2, hErr2, hEof2, hZ2⟩ :=
        handleEOFF_delta st₂ hN1 hH1'
      have hbal0 : countTok .indent acc + 1
          = countTok .unindent acc + st.indents.length := by
        have hb2 := hbal
        unfold emittedE at hb2
        rw [h1', List.append_nil] at hb2
        exact hb2
      constructor
      · intro hbt
        have hne3 : (handleEOFF st₂).toks ≠ [] := of_decide_eq_true hbt
        refine ⟨hN2, hH2, ?_, fun he3 => hEof2 (hErr2.symm.trans he3)⟩
        rw [emittedE_collect (handleEOFF st₂) acc hne3, hT2, hT1']
        simp only [countTok_append]
        omega
      · intro hbf he
        have h3 : (handleEOFF st₂).toks = [] := not_not.mp (of_decide_eq_false hbf)
        rw [hT2, hT1'] at h3
        obtain ⟨hΔ1, hΔ2⟩ := List.append_eq_nil.mp h3
        have hErrNo : st₂.err ≠ .noErr := hZ1 hΔ1
        have hErrEof : st₂.err ≠ .eofErr := hZ2 hΔ2
        rcases errF_eq_none _ he with hef | hno
        · exact absurd (hErr2.symm.trans hef) hErrEof
        · exact absurd (hErr2.symm.trans hno) hErrNo

/-- Driving the scanner to completion from any state satisfying the
invariant yields, under a nil `Err()`, a balanced token list and the
root-only indent stack. -/
theorem driveF_inv : ∀ (g f : Nat) (st : ScSt) (acc toks : List Token) (stF : ScSt),
    driveF g f st acc = some (toks, stF) → ScanInv st acc → errF stF = none →
    countTok .indent toks = countTok .unindent toks ∧ stF.indents = [""] := by
  intro g
  induction g with
  | zero => intro f st acc toks stF h _ _; cases h
  | succ g ih =>
    intro f st acc toks stF h hinv he
    simp only [driveF] at h
    cases hs : scanStep f st with
    | none =>
      simp only [hs] at h
      exact Option.noConfusion h
    | some r =>
      obtain ⟨b, st1⟩ := r
      have hstep := scanStep_inv f st st1 b acc hs hinv
      cases b with
      | true =>
        simp only [hs] at h
        exact ih f st1 (acc ++ [tokenF st1]) toks stF h (hstep.1 rfl) he
      | false =>
        simp only [hs] at h
        cases h
        exact hstep.2 rfl he

/-- C4: for every input stream the scanner accepts (the drive loop
terminates and `Err()` is nil), the `Indent` tokens emitted are exactly
balanced by the `Unindent` tokens — the synthesized closing `Unindent`s
at end of input included — and the final indent stack is exactly `[""]`. -/
theorem c4_indent_balance (g f : Nat) (input : List Char) (toks : List Token)
    (stF : ScSt) (h : driveF g f (initSc input) [] = some (toks, stF))
    (hok : errF stF = none) :
    countTok .indent toks = countTok .unindent toks ∧ stF.indents = [""] :=
  driveF_inv g f (initSc input) [] toks stF h
    ⟨fun hc => List.noConfusion hc, rfl, rfl, fun _ => rfl⟩ hok

/-- Witness for C4 on the concrete stream `"a\n\tb"`: one content line, an
indented second line, the synthesized closing `Unindent`, and `EOF`. -/
theorem c4_witness :
    driveF 10 50 (initSc ['a', '\n', '\t', 'b']) []
        = some ([⟨.lineString, "a"⟩, ⟨.indent, ""⟩, ⟨.lineString, "b"⟩,
                 ⟨.unindent, ""⟩, ⟨.eof, ""⟩],
                ⟨[], Char.ofNat 0, [""], [], .eofErr⟩) ∧
    (countTok .indent [⟨.lineString, "a"⟩, ⟨.indent, ""⟩, ⟨.lineString, "b"⟩,
          ⟨.unindent, ""⟩, ⟨.eof, ""⟩]
        = countTok .unindent [⟨.lineString, "a"⟩, ⟨.indent, ""⟩, ⟨.lineString, "b"⟩,
          ⟨.unindent, ""⟩, ⟨.eof, ""⟩] ∧
      (⟨[], Char.ofNat 0, [""], [], .eofErr⟩ : ScSt).indents = [""]) :=
  ⟨rfl, c4_indent_balance 10 50 ['a', '\n', '\t', 'b'] _ _ rfl rfl⟩
